import Mathlib

/-!
A shallow embedding of the parameter-building, schema-coercion,
target-resolution and fuzzing core of the mcp-hack command line tool,
together with theorems checking its natural-language specification.

Strings are modelled as lists of characters (`Str`), JSON values by the
inductive `Json`, and the Rust functions of `src/cmd/shared.rs`,
`src/cmd/exec.rs`, `src/cmd/fuzz.rs` and `src/mcp/mod.rs` as computable
Lean functions over those types.  Rust standard-library and crate
primitives that the code calls (string trimming and splitting, integer
and float parsing, URL scheme extraction, shell-style word splitting)
are modelled explicitly below, each next to the function that uses it.
-/

namespace McpHack

/-- Strings are modelled as lists of characters. -/
abbrev Str := List Char

/-- JSON values as handled by the serde_json crate.  Integral numbers are
carried as `Int` (serde_json i64/u64); a number produced from a finite
64-bit float is carried as `fnum` with the exact decimal value that was
parsed (its binary64 rounding is not modelled; no claim inspects the
stored value, only whether a number was produced at all). -/
inductive Json where
  | null
  | bool (b : Bool)
  | num (n : Int)
  | fnum (q : Rat)
  | str (s : Str)
  | arr (elems : List Json)
  | obj (fields : List (Str × Json))
deriving Repr

/-- Field lookup in a JSON object, first match (serde_json object keys
are unique, so first match agrees with map lookup). -/
def getField : List (Str × Json) → Str → Option Json
  | [], _ => none
  | (k, v) :: rest, key => if k = key then some v else getField rest key

/-- serde_json `Value::get` with a string key: object field access. -/
def Json.getKey : Json → Str → Option Json
  | .obj fields, key => getField fields key
  | _, _ => none

/-- serde_json `Value::as_object`. -/
def Json.asObject : Json → Option (List (Str × Json))
  | .obj fields => some fields
  | _ => none

/-- serde_json `Value::as_array`. -/
def Json.asArray : Json → Option (List Json)
  | .arr elems => some elems
  | _ => none

/-- serde_json `Value::as_str`. -/
def Json.asStr : Json → Option Str
  | .str s => some s
  | _ => none

/-- Rust `char::to_ascii_lowercase`. -/
def asciiLower (c : Char) : Char :=
  if 'A' ≤ c ∧ c ≤ 'Z' then Char.ofNat (c.toNat + 32) else c

/-- Rust `str::eq_ignore_ascii_case` (equality after per-character ASCII
lowercasing; both sides must have the same length). -/
def eqIgnoreAsciiCase (a b : Str) : Prop :=
  a.map asciiLower = b.map asciiLower

instance (a b : Str) : Decidable (eqIgnoreAsciiCase a b) := by
  unfold eqIgnoreAsciiCase; infer_instance

/-- Rust `char::is_whitespace` (the Unicode White_Space property). -/
def isRustWhitespace (c : Char) : Bool :=
  decide (c.toNat = 0x9) || decide (c.toNat = 0xA) || decide (c.toNat = 0xB) ||
  decide (c.toNat = 0xC) || decide (c.toNat = 0xD) || decide (c.toNat = 0x20) ||
  decide (c.toNat = 0x85) || decide (c.toNat = 0xA0) || decide (c.toNat = 0x1680) ||
  (decide (0x2000 ≤ c.toNat) && decide (c.toNat ≤ 0x200A)) ||
  decide (c.toNat = 0x2028) || decide (c.toNat = 0x2029) ||
  decide (c.toNat = 0x202F) || decide (c.toNat = 0x205F) || decide (c.toNat = 0x3000)

/-- Rust `str::trim_start`. -/
def trimLeft (s : Str) : Str := s.dropWhile isRustWhitespace

/-- Rust `str::trim_end`. -/
def trimRight (s : Str) : Str := (s.reverse.dropWhile isRustWhitespace).reverse

/-- Rust `str::trim`: whitespace removed from both ends. -/
def trim (s : Str) : Str := trimLeft (trimRight s)

/-- Rust `str::split(sep)` for a one-character separator: all segments
between separator occurrences, empty segments included. -/
def splitOnChar (sep : Char) : Str → List Str
  | [] => [[]]
  | c :: rest =>
    if c = sep then [] :: splitOnChar sep rest
    else
      match splitOnChar sep rest with
      | [] => [[c]]
      | seg :: segs => (c :: seg) :: segs

/-- Rust `str::split_once(sep)` for a one-character separator: the parts
before and after the first occurrence, or `none` if absent. -/
def splitOnceChar (sep : Char) : Str → Option (Str × Str)
  | [] => none
  | c :: rest =>
    if c = sep then some ([], rest)
    else (splitOnceChar sep rest).map fun p => (c :: p.1, p.2)

/-- Numeric value of an ASCII digit. -/
def digitVal (c : Char) : Nat := c.toNat - 48

/-- Accumulating decimal reading of a digit run (total; callers ensure
all characters are digits). -/
def natOfDigits (s : Str) : Nat :=
  s.foldl (fun acc c => acc * 10 + digitVal c) 0

/-- Decimal parse of a non-empty all-digit string, `none` on any
non-digit character or on the empty string. -/
def digitsToNat : Str → Option Nat
  | [] => none
  | s => if s.all Char.isDigit then some (natOfDigits s) else none

/-- Rust `<i64 as FromStr>::from_str`: an optional ASCII sign followed by
one or more ASCII decimal digits, failing on any other character, on the
empty string and on overflow of the signed 64-bit range. -/
def parseI64 (s : Str) : Option Int :=
  match s with
  | '+' :: rest => (digitsToNat rest).bind fun n =>
      if n ≤ 2 ^ 63 - 1 then some (n : Int) else none
  | '-' :: rest => (digitsToNat rest).bind fun n =>
      if n ≤ 2 ^ 63 then some (-(n : Int)) else none
  | _ => (digitsToNat s).bind fun n =>
      if n ≤ 2 ^ 63 - 1 then some (n : Int) else none

/-- Outcome of parsing a string as a 64-bit float: a finite value
(carried as the exact decimal rational), an infinity, or NaN. -/
inductive F64Val where
  | finite (q : Rat)
  | infinite
  | nan
deriving Repr, DecidableEq

/-- Smallest magnitude that rounds to infinity under binary64
round-to-nearest-even: the midpoint between the largest finite double
`(2 - 2 ^ (-52)) * 2 ^ 1023` and `2 ^ 1024`. -/
def overflowThreshold : Nat := 2 ^ 1024 - 2 ^ 970

/-- Whether the decimal value `m * 10 ^ d` is below the binary64
overflow threshold (and hence parses to a finite double). -/
def isFiniteMag (m : Nat) (d : Int) : Bool :=
  if 0 ≤ d then decide (m * 10 ^ d.toNat < overflowThreshold)
  else decide (m < overflowThreshold * 10 ^ (-d).toNat)

def kwInf : Str := "inf".toList
def kwInfinity : Str := "infinity".toList
def kwNan : Str := "nan".toList

/-- Mantissa and exponent part of the Rust float grammar:
`Digit+ | Digit+ '.' Digit* | '.' Digit+` followed by an optional
`('e'|'E') Sign? Digit+`, consuming the whole string.  Returns the
mantissa digits, the number of fraction digits and the signed exponent. -/
def parseDecimalParts (s : Str) : Option (Nat × Nat × Int) :=
  let ip := s.takeWhile Char.isDigit
  let r1 := s.dropWhile Char.isDigit
  let hasDot : Bool := match r1 with | '.' :: _ => true | _ => false
  let afterDot : Str := match r1 with | '.' :: r => r | _ => r1
  let fp := if hasDot then afterDot.takeWhile Char.isDigit else []
  let r2 := if hasDot then afterDot.dropWhile Char.isDigit else r1
  if ip = [] ∧ fp = [] then none
  else
    let m := natOfDigits (ip ++ fp)
    let f := fp.length
    match r2 with
    | [] => some (m, f, 0)
    | c :: r3 =>
      if c = 'e' ∨ c = 'E' then
        let (eneg, edigits) :=
          match r3 with
          | '+' :: r => (false, r)
          | '-' :: r => (true, r)
          | r => (false, r)
        match digitsToNat edigits with
        | some e => some (m, f, if eneg then -(e : Int) else (e : Int))
        | none => none
      else none

/-- Rust `<f64 as FromStr>::from_str`: optional sign, then a
case-insensitive `inf`/`infinity`/`nan` keyword or a decimal number with
optional exponent.  Finite results carry the exact decimal value; a
decimal whose magnitude reaches the binary64 overflow threshold parses
to an infinity (Rust returns `f64::INFINITY`, not an error). -/
def parseF64 (s : Str) : Option F64Val :=
  let (neg, rest) :=
    match s with
    | '+' :: r => (false, r)
    | '-' :: r => (true, r)
    | r => (false, r)
  if eqIgnoreAsciiCase rest kwInf ∨ eqIgnoreAsciiCase rest kwInfinity then some .infinite
  else if eqIgnoreAsciiCase rest kwNan then some .nan
  else
    match parseDecimalParts rest with
    | none => none
    | some (m, f, e) =>
      let d : Int := e - (f : Int)
      if isFiniteMag m d then
        let mag : Rat := (m : Rat) * (10 : Rat) ^ d
        some (.finite (if neg then -mag else mag))
      else some .infinite

/-- Whether a parse outcome is a finite value. -/
def F64Val.isFinite : F64Val → Bool
  | .finite _ => true
  | _ => false

/-- Whether a raw string parses as a finite 64-bit float. -/
def parsesFiniteF64 (raw : Str) : Bool :=
  match parseF64 raw with
  | some v => v.isFinite
  | none => false

def kwInteger : Str := "integer".toList
def kwNumber : Str := "number".toList
def kwBoolean : Str := "boolean".toList
def kwArray : Str := "array".toList
def kwString : Str := "string".toList
def kwTrue : Str := "true".toList
def kwOne : Str := "1".toList
def kwYes : Str := "yes".toList
def kwY : Str := "y".toList
def kwFalse : Str := "false".toList
def kwZero : Str := "0".toList
def kwNo : Str := "no".toList
def kwN : Str := "n".toList

/-- `coerce_value` from `src/cmd/shared.rs`: coerce a raw string into a
JSON value using a primitive type hint.  The `number` arm models
`raw.parse::<f64>().ok().and_then(Number::from_f64)`: `from_f64`
returns `None` on NaN and the infinities, so only finite parses yield a
number and everything else keeps the raw string. -/
def coerce_value (raw : Str) (type_hint : Str) : Json :=
  if type_hint = kwInteger then
    match parseI64 raw with
    | some n => .num n
    | none => .str raw
  else if type_hint = kwNumber then
    match parseF64 raw with
    | some (.finite q) => .fnum q
    | _ => .str raw
  else if type_hint = kwBoolean then
    let l := raw.map asciiLower
    if l = kwTrue ∨ l = kwOne ∨ l = kwYes ∨ l = kwY then .bool true
    else if l = kwFalse ∨ l = kwZero ∨ l = kwNo ∨ l = kwN then .bool false
    else .str raw
  else if type_hint = kwArray then
    .arr ((splitOnChar ',' raw).map fun seg => .str (trim seg))
  else .str raw

/- ---- Argument building / schema handling (src/cmd/shared.rs) ---- -/

def kwInputSchemaSnake : Str := "input_schema".toList
def kwInputSchemaCamel : Str := "inputSchema".toList
def kwRequired : Str := "required".toList
def kwProperties : Str := "properties".toList
def kwType : Str := "type".toList
def kwName : Str := "name".toList
def kwTools : Str := "tools".toList

/-- The schema object of a tool: `input_schema` or, failing that,
`inputSchema`, then `as_object`. -/
def schemaOf (tool_obj : List (Str × Json)) : Option (List (Str × Json)) :=
  (match getField tool_obj kwInputSchemaSnake with
   | some v => some v
   | none => getField tool_obj kwInputSchemaCamel).bind Json.asObject

/-- The required-parameter names collected from the schema: the string
elements of its `required` array (non-strings are skipped). -/
def requiredOf (tool_obj : List (Str × Json)) : List Str :=
  match (schemaOf tool_obj).bind fun s => getField s kwRequired with
  | some (.arr xs) => xs.filterMap Json.asStr
  | _ => []

/-- The `properties` object of the schema, or `[]` when absent or not an
object (in which case the property loop in the source does not run). -/
def propsOf (tool_obj : List (Str × Json)) : List (Str × Json) :=
  match (schemaOf tool_obj).bind fun s => getField s kwProperties with
  | some (.obj fields) => fields
  | _ => []

/-- First-match lookup in a string-to-string map (keys are unique in the
HashMap being modelled). -/
def lookupStr : List (Str × Str) → Str → Option Str
  | [], _ => none
  | (k, v) :: rest, key => if k = key then some v else lookupStr rest key

/-- `HashMap::remove`: the value at a key together with the map without
that entry, or `none` when absent. -/
def lookupRemove : List (Str × Str) → Str → Option (Str × List (Str × Str))
  | [], _ => none
  | (k, v) :: rest, key =>
    if k = key then some (v, rest)
    else (lookupRemove rest key).map fun p => (p.1, (k, v) :: p.2)

/-- `HashMap::insert`: overwrite the value at a key, or append a new
entry. -/
def insertStr : List (Str × Str) → Str → Str → List (Str × Str)
  | [], k, v => [(k, v)]
  | (k', v') :: rest, k, v =>
    if k' = k then (k', v) :: rest else (k', v') :: insertStr rest k v

def msgMissingRequired : Str := "missing required parameter: ".toList

/-- The error message of the `anyhow::bail!` in
`build_arguments_from_schema`. -/
def missingRequiredMsg (pname : Str) : Str := msgMissingRequired ++ pname

/-- The declared type of a property object:
`pobj.as_object().and_then(get "type").and_then(as_str)` with a
`"string"` default. -/
def declaredType (pobj : Json) : Str :=
  match pobj.asObject.bind fun m => getField m kwType with
  | some (.str t) => t
  | _ => kwString

/-- The property loop of `build_arguments_from_schema`: provided values
are removed from the working map and coerced, a required property that
is absent bails out, and other absent properties are skipped.  Returns
the result object so far and the remaining provided entries. -/
def buildArgsLoop (required : List Str) :
    List (Str × Json) → List (Str × Str) → List (Str × Json) →
    Except Str (List (Str × Json) × List (Str × Str))
  | [], remaining, result => .ok (result, remaining)
  | (pname, pobj) :: rest, remaining, result =>
    match lookupRemove remaining pname with
    | some (rawv, remaining') =>
      buildArgsLoop required rest remaining'
        (result ++ [(pname, coerce_value rawv (declaredType pobj))])
    | none =>
      if pname ∈ required then .error (missingRequiredMsg pname)
      else buildArgsLoop required rest remaining result

/-- `build_arguments_from_schema` from `src/cmd/shared.rs`: coerce the
provided raw strings per the schema, bail on a missing required
property, and pass entries not covered by the schema through as plain
strings. -/
def build_arguments_from_schema (tool_obj : List (Str × Json))
    (provided : List (Str × Str)) : Except Str (List (Str × Json)) :=
  match buildArgsLoop (requiredOf tool_obj) (propsOf tool_obj) provided [] with
  | .error e => .error e
  | .ok (result, remaining) =>
    .ok (result ++ remaining.map fun kv => (kv.1, Json.str kv.2))

/- ---- Tool lookup (src/cmd/shared.rs, src/cmd/exec.rs) ---- -/

/-- The scan inside `find_tool_case_insensitive`: the first tool object
whose `name` field is a string equal to the requested name up to ASCII
case. -/
def findToolIn (name : Str) : List Json → Option Json
  | [] => none
  | t :: rest =>
    match (t.getKey kwName).bind Json.asStr with
    | some n => if eqIgnoreAsciiCase n name then some t else findToolIn name rest
    | none => findToolIn name rest

/-- `find_tool_case_insensitive` from `src/cmd/shared.rs`. -/
def find_tool_case_insensitive (value : Json) (name : Str) : Option Json :=
  match (value.getKey kwTools).bind Json.asArray with
  | none => none
  | some arr => findToolIn name arr

def msgToolPre : Str := "tool '".toList
def msgToolPost : Str := "' not found".toList

/-- The "tool not found" error message built in `invoke_tool`
(src/cmd/exec.rs): `format!("tool '{}' not found", tool_name)`. -/
def toolNotFoundMsg (name : Str) : Str := msgToolPre ++ name ++ msgToolPost

/-- The tool-resolution step of `invoke_tool` (src/cmd/exec.rs): the
found descriptor, or the "tool not found" error. -/
def resolveTool (tools_val : Json) (tool_name : Str) : Except Str Json :=
  match find_tool_case_insensitive tools_val tool_name with
  | some t => .ok t
  | none => .error (toolNotFoundMsg tool_name)

/- ---- JSON text rendering (serde_json Value::to_string) ---- -/

/-- The ASCII character of a value below 16, as a lowercase hex digit. -/
def hexDigitChar (n : Nat) : Char :=
  if n < 10 then Char.ofNat (48 + n) else Char.ofNat (87 + n)

/-- serde_json string escaping: quote and backslash are escaped, control
characters use the two-character escapes or `\u00XX`. -/
def escapeJsonChar (c : Char) : Str :=
  if c = '"' then ['\\', '"']
  else if c = '\\' then ['\\', '\\']
  else if c.toNat = 0x8 then ['\\', 'b']
  else if c.toNat = 0x9 then ['\\', 't']
  else if c.toNat = 0xA then ['\\', 'n']
  else if c.toNat = 0xC then ['\\', 'f']
  else if c.toNat = 0xD then ['\\', 'r']
  else if c.toNat < 0x20 then
    ['\\', 'u', '0', '0', hexDigitChar (c.toNat / 16), hexDigitChar (c.toNat % 16)]
  else [c]

def digitChar (n : Nat) : Char := Char.ofNat (48 + n)

/-- Decimal rendering of a natural number (fuel-structured so that it
computes by kernel reduction). -/
def natToStrAux : Nat → Nat → Str
  | 0, _ => []
  | fuel + 1, n =>
    if n < 10 then [digitChar n]
    else natToStrAux fuel (n / 10) ++ [digitChar (n % 10)]

def natToStr (n : Nat) : Str := natToStrAux (n + 1) n

/-- Decimal rendering of an integer, as the Display of a serde_json
integral number. -/
def intToStr (n : Int) : Str :=
  if n < 0 then '-' :: natToStr (-n).toNat else natToStr n.toNat

/-- Comma-join of rendered pieces. -/
def commaSep : List Str → Str
  | [] => []
  | [s] => s
  | s :: rest => s ++ ',' :: commaSep rest

/-- Compact JSON text of a value, as serde_json `Value::to_string`.
Float rendering (the ryu algorithm) is not modelled: an `fnum` is
rendered from its rational representation, and no claim exercises it. -/
def jsonToString : Json → Str
  | .null => "null".toList
  | .bool true => "true".toList
  | .bool false => "false".toList
  | .num n => intToStr n
  | .fnum q => intToStr q.num ++ '/' :: natToStr q.den
  | .str s => '"' :: (s.flatMap escapeJsonChar) ++ ['"']
  | .arr elems => '[' :: commaSep (elems.attach.map fun e => jsonToString e.1) ++ [']']
  | .obj fields =>
    '{' :: commaSep (fields.attach.map fun f =>
      '"' :: (f.1.1.flatMap escapeJsonChar) ++ '"' :: ':' :: jsonToString f.1.2) ++ ['}']
termination_by v => sizeOf v
decreasing_by
  · have h := List.sizeOf_lt_of_mem e.2
    simp only [Json.arr.sizeOf_spec]
    omega
  · have h := List.sizeOf_lt_of_mem f.2
    have h2 : sizeOf f.1.2 < sizeOf f.1 := by
      obtain ⟨⟨a, b⟩, hf⟩ := f
      simp
    simp only [Json.obj.sizeOf_spec]
    omega

/- ---- Parameter file merge (src/cmd/exec.rs) ---- -/

def msgRootMustBeObject : Str := "param file root must be an object".toList

/-- The value inserted into the parameter map for a file entry: string
values verbatim, anything else via its JSON text. -/
def stringifyParamValue : Json → Str
  | .str s => s
  | v => jsonToString v

/-- The merge loop of `load_param_file_into_map`: file keys already
present in the map are skipped (CLI overrides file), the rest are
inserted. -/
def mergeFileFields : List (Str × Json) → List (Str × Str) → List (Str × Str)
  | [], provided => provided
  | (k, v) :: rest, provided =>
    if (lookupStr provided k).isSome then mergeFileFields rest provided
    else mergeFileFields rest (provided ++ [(k, stringifyParamValue v)])

/-- `load_param_file_into_map` from `src/cmd/exec.rs`, modelled from the
parsed root value of the file (reading the file and parsing its JSON or
YAML text are I/O done by external crates; both produce the serde_json
value this function walks). -/
def load_param_file_into_map (root : Json) (provided : List (Str × Str)) :
    Except Str (List (Str × Str)) :=
  match root.asObject with
  | none => .error msgRootMustBeObject
  | some fields => .ok (mergeFileFields fields provided)

/- ---- Interactive prompting (src/cmd/exec.rs) ---- -/

/-- The inner read loop of `prompt_for_missing_required`: consume stdin
lines until one is non-empty after trimming; `none` models the
divergence that the source exhibits when stdin is exhausted (at EOF
`read_line` keeps returning an empty line forever). -/
def promptReadLoop : List Str → Option (Str × List Str)
  | [] => none
  | line :: rest =>
    let val := trim line
    if val = [] then promptReadLoop rest else some (val, rest)

/-- The property loop of `prompt_for_missing_required`: for each
required property not already provided, read a value from stdin.
Returns the updated map, the unread stdin lines, and the names prompted
for, in order. -/
def promptProps (required : List Str) :
    List (Str × Json) → List (Str × Str) → List Str → List Str →
    Option (List (Str × Str) × List Str × List Str)
  | [], provided, input, prompted => some (provided, input, prompted)
  | (pname, _) :: rest, provided, input, prompted =>
    if pname ∈ required then
      if (lookupStr provided pname).isSome then
        promptProps required rest provided input prompted
      else
        match promptReadLoop input with
        | none => none
        | some (val, input') =>
          promptProps required rest (insertStr provided pname val) input' (prompted ++ [pname])
    else promptProps required rest provided input prompted

/-- `prompt_for_missing_required` from `src/cmd/exec.rs`.  Stdin is
modelled as a list of lines; the result carries the updated parameter
map, the unconsumed stdin, and the list of property names prompted for.
Note that only the snake_case `input_schema` key is consulted here. -/
def prompt_for_missing_required (tool_obj : List (Str × Json))
    (provided : List (Str × Str)) (input : List Str) :
    Option (List (Str × Str) × List Str × List Str) :=
  match (getField tool_obj kwInputSchemaSnake).bind Json.asObject with
  | none => some (provided, input, [])
  | some schemaObj =>
    let required :=
      match getField schemaObj kwRequired with
      | some (.arr xs) => xs.filterMap Json.asStr
      | _ => []
    let props :=
      match getField schemaObj kwProperties with
      | some (.obj fields) => fields
      | _ => []
    promptProps required props provided input []

/- ---- Target parsing (src/mcp/mod.rs) ---- -/

/-- A parsed URL, reduced to what `parse_target` and `TargetSpec.kind`
observe of the url crate: the (lowercased) scheme and the text after
the colon. -/
structure UrlT where
  scheme : Str
  rest : Str
deriving Repr, DecidableEq

def kwHttp : Str := "http".toList
def kwHttps : Str := "https".toList
def kwWs : Str := "ws".toList
def kwWss : Str := "wss".toList
def kwFtp : Str := "ftp".toList
def kwFile : Str := "file".toList

/-- Valid characters of a URL scheme after its first letter. -/
def isSchemeChar (c : Char) : Bool :=
  c.isAlphanum || decide (c = '+') || decide (c = '-') || decide (c = '.')

/-- A prefix test on character lists. -/
def isPfx : Str → Str → Bool
  | [], _ => true
  | _ :: _, [] => false
  | a :: as, b :: bs => a == b && isPfx as bs

/-- Specification-side splitter: the segments of `s` between leftmost
non-overlapping occurrences of the pattern `p` (the pieces such that
interleaving `w` between them is "every occurrence of `p` replaced by
`w`"). -/
def splitSeqFuel (p : Str) : Nat → Str → List Str
  | 0, s => [s]
  | _ + 1, [] => [[]]
  | fuel + 1, c :: rest =>
    if isPfx p (c :: rest) then [] :: splitSeqFuel p fuel ((c :: rest).drop p.length)
    else
      match splitSeqFuel p fuel rest with
      | [] => [[c]]
      | seg :: segs => (c :: seg) :: segs

/-- The segments of `s` between occurrences of a non-empty pattern. -/
def splitOnSeq (s p : Str) : List Str := splitSeqFuel p s.length s

/-- WHATWG input preparation: leading and trailing C0 controls and
spaces are removed before parsing. -/
def trimC0Space (s : Str) : Str :=
  ((s.dropWhile fun c => decide (c.toNat ≤ 0x20)).reverse.dropWhile
    fun c => decide (c.toNat ≤ 0x20)).reverse

/-- ASCII hex digit. -/
def isHexDigitChar (c : Char) : Bool :=
  c.isDigit || (decide ('a' ≤ c) && decide (c ≤ 'f')) ||
  (decide ('A' ≤ c) && decide (c ≤ 'F'))

/-- Value of an ASCII hex digit. -/
def hexVal (c : Char) : Nat :=
  if c.isDigit then c.toNat - 48
  else if decide ('a' ≤ c) && decide (c ≤ 'f') then c.toNat - 87
  else c.toNat - 55

/-- Hex reading of a digit run. -/
def hexToNat (s : Str) : Nat := s.foldl (fun acc c => acc * 16 + hexVal c) 0

/-- Octal ASCII digit. -/
def isOctalDigit (c : Char) : Bool := decide ('0' ≤ c) && decide (c ≤ '7')

/-- Octal reading of a digit run. -/
def octToNat (s : Str) : Nat := s.foldl (fun acc c => acc * 8 + digitVal c) 0

/-- WHATWG percent decoding as applied to hosts: a percent sign followed
by two hex digits becomes that byte; malformed sequences are kept
verbatim (the stray percent then fails the forbidden-code-point check,
as in the standard). -/
def percentDecodeHost : Str → Str
  | [] => []
  | '%' :: a :: b :: rest =>
    if isHexDigitChar a && isHexDigitChar b then
      Char.ofNat (16 * hexVal a + hexVal b) :: percentDecodeHost rest
    else '%' :: percentDecodeHost (a :: b :: rest)
  | c :: rest => c :: percentDecodeHost rest

/-- The forbidden domain code points of the WHATWG URL standard (C0
controls, space, delete, and the structural characters including the
percent sign). -/
def forbiddenDomainChar (c : Char) : Bool :=
  decide (c.toNat < 0x20) || decide (c.toNat = 0x7F) || decide (c = ' ') ||
  decide (c = '#') || decide (c = '/') || decide (c = ':') || decide (c = '<') ||
  decide (c = '>') || decide (c = '?') || decide (c = '@') || decide (c = '[') ||
  decide (c = '\\') || decide (c = ']') || decide (c = '^') || decide (c = '|') ||
  decide (c = '%')

/-- The WHATWG IPv4 number parser: `0x`/`0X` prefix reads hex (possibly
empty), a remaining leading zero reads octal, otherwise decimal; any
digit outside the radix fails. -/
def parseIPv4Number (s : Str) : Option Nat :=
  match s with
  | [] => none
  | '0' :: c :: rest =>
    if c = 'x' ∨ c = 'X' then
      if rest.all isHexDigitChar then some (hexToNat rest) else none
    else if (c :: rest).all isOctalDigit then some (octToNat (c :: rest))
    else none
  | s => if s.all Char.isDigit then some (natOfDigits s) else none

/-- The WHATWG IPv4 host parser on the dot-split parts (one trailing
empty label already dropped): at most four parts, every part a valid
IPv4 number, non-final parts at most 255, and the final part below
`256 ^ (5 - n)`. -/
def ipv4HostValid (host : Str) : Bool :=
  let parts0 := splitOnChar '.' host
  let parts := if parts0.getLast? = some [] then parts0.dropLast else parts0
  match parts.getLast? with
  | none => false
  | some lastPart =>
    decide (parts.length ≤ 4) &&
    parts.all (fun p => (parseIPv4Number p).isSome) &&
    parts.dropLast.all (fun p => decide ((parseIPv4Number p).getD 0 ≤ 255)) &&
    decide ((parseIPv4Number lastPart).getD 0 < 256 ^ (5 - parts.length))

/-- The ends-in-a-number checker: the last non-empty dot-label is all
decimal digits or a `0x`-prefixed hex run. -/
def isIPv4NumberStr (s : Str) : Bool :=
  match s with
  | [] => false
  | '0' :: c :: rest =>
    if c = 'x' ∨ c = 'X' then rest.all isHexDigitChar
    else ('0' :: c :: rest).all Char.isDigit
  | s => s.all Char.isDigit

/-- Whether a host must be reparsed as IPv4 (its last non-empty label
is a number). -/
def endsInNumber (host : Str) : Bool :=
  let labels := splitOnChar '.' host
  match (if labels.getLast? = some [] then labels.dropLast else labels).getLast? with
  | some lab => isIPv4NumberStr lab
  | none => false

/-- Domain-host validation for special schemes: percent-decode, reject
the empty host and forbidden domain code points, and reparse as IPv4
when the host ends in a number.  The IDNA mapping itself (punycode,
case folding of non-ASCII) is not modelled: the model accepts such
hosts, and no claim turns on an IDNA failure. -/
def domainHostValid (host : Str) : Bool :=
  let decoded := percentDecodeHost host
  !decoded.isEmpty &&
  decoded.all (fun c => ! forbiddenDomainChar c) &&
  (if endsInNumber decoded then ipv4HostValid decoded else true)

/-- A dot-free hex group of one to four digits (an IPv6 piece). -/
def hexPieceValid (g : Str) : Bool :=
  decide (1 ≤ g.length) && decide (g.length ≤ 4) && g.all isHexDigitChar

/-- A decimal IPv4 part as embedded in an IPv6 literal: digits only,
no leading zero, at most 255. -/
def ipv4PartDecValid (p : Str) : Bool :=
  !p.isEmpty && p.all Char.isDigit &&
  (decide (p.length = 1) || decide (p.headI ≠ '0')) &&
  decide (natOfDigits p ≤ 255)

/-- An embedded IPv4 tail of an IPv6 literal: four valid decimal
parts. -/
def ipv4InV6Valid (s : Str) : Bool :=
  let parts := splitOnChar '.' s
  decide (parts.length = 4) && parts.all ipv4PartDecValid

/-- Count the 16-bit units of a colon-split group list, validating each
group; the final group may be an embedded IPv4 tail (two units) when
allowed.  `none` on any invalid group. -/
def v6GroupsUnits (ipv4Allowed : Bool) : List Str → Option Nat
  | [] => some 0
  | [g] =>
    if '.' ∈ g then (if ipv4Allowed && ipv4InV6Valid g then some 2 else none)
    else (if hexPieceValid g then some 1 else none)
  | g :: rest =>
    if hexPieceValid g && decide ('.' ∉ g) then
      (v6GroupsUnits ipv4Allowed rest).map (· + 1)
    else none

def doubleColon : Str := [':', ':']

/-- WHATWG IPv6 literal syntax: hex groups separated by colons, at most
one `::` compression, eight units total (seven or fewer explicit units
with compression), optional embedded IPv4 tail. -/
def ipv6Valid (s : Str) : Bool :=
  match splitOnSeq s doubleColon with
  | [whole] =>
    (match v6GroupsUnits true (if whole = [] then [] else splitOnChar ':' whole) with
     | some n => decide (n = 8)
     | none => false)
  | [l, r] =>
    (match v6GroupsUnits false (if l = [] then [] else splitOnChar ':' l),
        v6GroupsUnits true (if r = [] then [] else splitOnChar ':' r) with
     | some a, some b => decide (a + b ≤ 7)
     | _, _ => false)
  | _ => false

/-- Digit-only port of value at most 65535 (possibly empty). -/
def portValid (p : Str) : Bool :=
  p.all Char.isDigit && (p.isEmpty || decide (natOfDigits p ≤ 65535))

/-- WHATWG authority parsing for a special scheme, applied to the text
after the colon: any run of slashes and backslashes is skipped (the
slash recovery that also accepts zero, one or three slashes), the
authority runs to the next `/`, `\`, `?` or `#`, the host is the part
after the last `@`, and the host is a bracketed IPv6 literal or a
domain, optionally followed by a digit-only port. -/
def specialAuthorityValid (r : Str) (allowEmptyHost : Bool) : Bool :=
  let a := r.dropWhile fun c => c = '/' ∨ c = '\\'
  let auth := a.takeWhile fun c => ¬ (c = '/' ∨ c = '\\' ∨ c = '?' ∨ c = '#')
  let hasAt := decide ('@' ∈ auth)
  let hostPort :=
    if hasAt then ((auth.reverse).takeWhile fun c => ¬ c = '@').reverse else auth
  match hostPort with
  | [] => if hasAt then false else allowEmptyHost
  | '[' :: inner =>
    (match splitOnceChar ']' inner with
     | none => false
     | some (ip, after) =>
       ipv6Valid ip &&
       (match after with
        | [] => true
        | ':' :: port => portValid port
        | _ => false))
  | _ =>
    (match splitOnceChar ':' hostPort with
     | none => domainHostValid hostPort
     | some (host, port) =>
       (if host = [] then false else domainHostValid host) && portValid port)

/-- Models `url::Url::parse` as far as `parse_target` observes it.
Scheme extraction follows the WHATWG grammar (one ASCII letter, then
letters, digits, `+`, `-`, `.`, then a colon; lowercased); the input is
first trimmed of C0 controls and spaces and stripped of ASCII tabs and
newlines, as the standard prescribes.  For the special schemes the
authority is validated by `specialAuthorityValid`, including the slash
recovery that accepts `http:foo`, `https:/x` and `ws:host` as remote
URLs, and the forbidden-host-code-point, IPv4 and IPv6 and port checks
that reject hosts such as one containing a space.  For every other
scheme the model succeeds without validating the remainder: whether the
crate accepts or rejects such a URL, `parse_target` reaches the same
command-parsing path, so the distinction is unobservable in this
program.  The IDNA mapping of non-ASCII or punycode labels is not
modelled (such hosts are accepted); no claim turns on it. -/
def urlParse (s0 : Str) : Option UrlT :=
  let s := (trimC0Space s0).filter fun c => ¬ (c = '\t' ∨ c = '\n' ∨ c = '\r')
  match s with
  | [] => none
  | c :: _ =>
    if c.isAlpha then
      let sch := s.takeWhile isSchemeChar
      match s.dropWhile isSchemeChar with
      | ':' :: r =>
        let schemeLower := sch.map asciiLower
        if schemeLower = kwHttp ∨ schemeLower = kwHttps ∨ schemeLower = kwWs ∨
            schemeLower = kwWss ∨ schemeLower = kwFtp then
          if specialAuthorityValid r false then
            some { scheme := schemeLower, rest := r }
          else none
        else if schemeLower = kwFile then
          if specialAuthorityValid r true then
            some { scheme := schemeLower, rest := r }
          else none
        else some { scheme := schemeLower, rest := r }
      | _ => none
    else none

/-- The states of the shell-words splitting automaton. -/
inductive SwState where
  | delim
  | afterBackslash
  | unquoted
  | unquotedAfterBackslash
  | singleQuoted
  | doubleQuoted
  | doubleQuotedAfterBackslash
  | comment
deriving Repr, DecidableEq

/-- One-word lookahead shorthand used by the automaton. -/
def isSwDelim (c : Char) : Bool :=
  decide (c = ' ') || decide (c = '\t') || decide (c = '\n')

/-- The state machine of `shell_words::split` (the `shell_split` used by
`parse_target`): whitespace-delimited words with single quotes, double
quotes with their escape rules, backslash escapes and `#` comments;
`none` on an unterminated quote. -/
def shellSplitGo : SwState → Str → Str → List Str → Option (List Str)
  | .delim, [], _, words => some words
  | .delim, c :: rest, word, words =>
    if c = '\'' then shellSplitGo .singleQuoted rest word words
    else if c = '"' then shellSplitGo .doubleQuoted rest word words
    else if c = '\\' then shellSplitGo .afterBackslash rest word words
    else if isSwDelim c then shellSplitGo .delim rest word words
    else if c = '#' then shellSplitGo .comment rest word words
    else shellSplitGo .unquoted rest (word ++ [c]) words
  | .afterBackslash, [], word, words => some (words ++ [word ++ ['\\']])
  | .afterBackslash, c :: rest, word, words =>
    if c = '\n' then shellSplitGo .delim rest word words
    else shellSplitGo .unquoted rest (word ++ [c]) words
  | .unquoted, [], word, words => some (words ++ [word])
  | .unquoted, c :: rest, word, words =>
    if c = '\'' then shellSplitGo .singleQuoted rest word words
    else if c = '"' then shellSplitGo .doubleQuoted rest word words
    else if c = '\\' then shellSplitGo .unquotedAfterBackslash rest word words
    else if isSwDelim c then shellSplitGo .delim rest [] (words ++ [word])
    else shellSplitGo .unquoted rest (word ++ [c]) words
  | .unquotedAfterBackslash, [], word, words => some (words ++ [word ++ ['\\']])
  | .unquotedAfterBackslash, c :: rest, word, words =>
    if c = '\n' then shellSplitGo .unquoted rest word words
    else shellSplitGo .unquoted rest (word ++ [c]) words
  | .singleQuoted, [], _, _ => none
  | .singleQuoted, c :: rest, word, words =>
    if c = '\'' then shellSplitGo .unquoted rest word words
    else shellSplitGo .singleQuoted rest (word ++ [c]) words
  | .doubleQuoted, [], _, _ => none
  | .doubleQuoted, c :: rest, word, words =>
    if c = '"' then shellSplitGo .unquoted rest word words
    else if c = '\\' then shellSplitGo .doubleQuotedAfterBackslash rest word words
    else shellSplitGo .doubleQuoted rest (word ++ [c]) words
  | .doubleQuotedAfterBackslash, [], _, _ => none
  | .doubleQuotedAfterBackslash, c :: rest, word, words =>
    if c = '\n' then shellSplitGo .doubleQuoted rest word words
    else if c = '$' ∨ c = '`' ∨ c = '"' ∨ c = '\\' then
      shellSplitGo .doubleQuoted rest (word ++ [c]) words
    else shellSplitGo .doubleQuoted rest (word ++ ['\\', c]) words
  | .comment, [], _, words => some words
  | .comment, c :: rest, word, words =>
    if c = '\n' then shellSplitGo .delim rest word words
    else shellSplitGo .comment rest word words

/-- `shell_words::split`. -/
def shell_split (s : Str) : Option (List Str) := shellSplitGo .delim s [] []

/-- `TargetSpec` from `src/mcp/mod.rs` (the fields used by the claims). -/
inductive TargetSpec where
  | localCommand (original : Str) (program : Str) (args : List Str)
  | remoteUrl (original : Str) (url : UrlT)
deriving Repr, DecidableEq

/-- `TargetKind` from `src/mcp/mod.rs`. -/
inductive TargetKind where
  | localProcess
  | remoteHttp
  | remoteWs
  | unknown
deriving Repr, DecidableEq

/-- `TargetSpec::kind`. -/
def TargetSpec.kind : TargetSpec → TargetKind
  | .localCommand .. => .localProcess
  | .remoteUrl _ url =>
    if url.scheme = kwHttp ∨ url.scheme = kwHttps then .remoteHttp
    else if url.scheme = kwWs ∨ url.scheme = kwWss then .remoteWs
    else .unknown

/-- `TargetSpec::is_remote`. -/
def TargetSpec.isRemote (t : TargetSpec) : Bool :=
  decide (t.kind = .remoteHttp) || decide (t.kind = .remoteWs)

/-- `TargetSpec::is_local`. -/
def TargetSpec.isLocal (t : TargetSpec) : Bool :=
  decide (t.kind = .localProcess)

def msgTargetEmpty : Str := "Target string is empty".toList
def msgShellSplitFailed : Str :=
  "Failed to parse local command line (shell splitting)".toList
def msgNoTokens : Str :=
  "No tokens produced when parsing local command target".toList
def msgEmptyProgram : Str :=
  "Empty program name in local command target".toList

/-- The local-command path of `parse_target` (reached when URL parsing
fails or yields a non-MCP scheme): shell-split the trimmed input, reject
zero tokens and an empty program name. -/
def parseLocalCommand (raw trimmed : Str) : Except Str TargetSpec :=
  match shell_split trimmed with
  | none => .error msgShellSplitFailed
  | some [] => .error msgNoTokens
  | some (program :: args) =>
    if program = [] then .error msgEmptyProgram
    else .ok (.localCommand raw program args)

/-- `parse_target` from `src/mcp/mod.rs` (the source binds
`trimmed = raw.trim()` once; here `trim raw` is written inline). -/
def parse_target (raw : Str) : Except Str TargetSpec :=
  if trim raw = [] then .error msgTargetEmpty
  else
    match urlParse (trim raw) with
    | some url =>
      if url.scheme = kwHttp ∨ url.scheme = kwHttps ∨ url.scheme = kwWs ∨
          url.scheme = kwWss then
        .ok (.remoteUrl raw url)
      else parseLocalCommand raw (trim raw)
    | none => parseLocalCommand raw (trim raw)

/- ---- Placeholder substitution and the fuzz loop (src/cmd/fuzz.rs) ---- -/

/-- The non-empty-pattern core of Rust `str::replace`: leftmost
non-overlapping occurrences of `p` are replaced by `w`.  Fuel-structured
(one unit per character) so that it computes by kernel reduction. -/
def replFuel (p w : Str) : Nat → Str → Str
  | 0, s => s
  | _ + 1, [] => []
  | fuel + 1, c :: rest =>
    if isPfx p (c :: rest) then w ++ replFuel p w fuel ((c :: rest).drop p.length)
    else c :: replFuel p w fuel rest

/-- Rust `str::replace(p, w)`.  An empty pattern matches at every
character boundary, so `w` is interleaved before, between and after all
characters. -/
def rustReplace (s p w : Str) : Str :=
  if p = [] then w ++ s.flatMap (fun c => c :: w)
  else replFuel p w s.length s

def msgInvalidParamEmptyKeyPre : Str := "invalid --param (empty key): ".toList
def msgInvalidParamNoEqPre : Str := "invalid --param (expected KEY=VALUE): ".toList

/-- Error message for a parameter whose key is empty after substitution
and splitting (`format!("invalid --param (empty key): {}", kv)`). -/
def invalidParamEmptyKeyMsg (kv : Str) : Str := msgInvalidParamEmptyKeyPre ++ kv

/-- Error message for a parameter with no `=`
(`format!("invalid --param (expected KEY=VALUE): {}", kv)`). -/
def invalidParamNoEqMsg (kv : Str) : Str := msgInvalidParamNoEqPre ++ kv

/-- The per-word CLI-parameter pass of `execute_fuzz`: each `KEY=VALUE`
string has every occurrence of the placeholder replaced by the current
word, is then split on the first `=`, both sides trimmed, and inserted;
an absent `=` or an empty key aborts with an error. -/
def collectFuzzParams (placeholder word : Str) :
    List Str → List (Str × Str) → Except Str (List (Str × Str))
  | [], provided => .ok provided
  | kv :: rest, provided =>
    let substituted := rustReplace kv placeholder word
    match splitOnceChar '=' substituted with
    | some (k, v) =>
      let key := trim k
      if key = [] then .error (invalidParamEmptyKeyMsg kv)
      else collectFuzzParams placeholder word rest (insertStr provided key (trim v))
    | none => .error (invalidParamNoEqMsg kv)

/-- The provided-parameter map built for one fuzz word: CLI parameters
with placeholder substitution, then the parameter file (if any) merged
skip-if-present with no substitution. -/
def buildWordParams (params : List Str) (placeholder word : Str)
    (fileRoot : Option Json) : Except Str (List (Str × Str)) :=
  match collectFuzzParams placeholder word params [] with
  | .error e => .error e
  | .ok provided =>
    match fileRoot with
    | none => .ok provided
    | some root => load_param_file_into_map root provided

/-- One reported fuzz record: the fields every per-iteration report of
`execute_fuzz` carries (both JSON and human mode report the request
index, the total request count, the word, and success or failure). -/
structure FuzzRecord where
  index : Nat
  total : Nat
  word : Str
  success : Bool
deriving Repr, DecidableEq

/-- The wordlist loop of `execute_fuzz`.  `invoke` abstracts
`invoke_tool` (spawn, list, call): it is told the request index and the
built parameter map and reports success or failure.  The loop emits one
record per word; a parameter-collection or file-merge error aborts the
run (`output_error` returns early), which the second component records.
An `invoke` failure only marks that record as failed. -/
def fuzzLoop (params : List Str) (placeholder : Str) (fileRoot : Option Json)
    (invoke : Nat → List (Str × Str) → Bool) (total : Nat) :
    Nat → List Str → List FuzzRecord × Option Str
  | _, [] => ([], none)
  | i, word :: rest =>
    match buildWordParams params placeholder word fileRoot with
    | .error e => ([], some e)
    | .ok provided =>
      let r : FuzzRecord :=
        { index := i, total := total, word := word, success := invoke i provided }
      let out := fuzzLoop params placeholder fileRoot invoke total (i + 1) rest
      (r :: out.1, out.2)

/-- The fuzzing pass of `execute_fuzz` over a wordlist: the records
reported in order, and the abort error if the run stopped early. -/
def execute_fuzz_records (params : List Str) (placeholder : Str)
    (fileRoot : Option Json) (invoke : Nat → List (Str × Str) → Bool)
    (words : List Str) : List FuzzRecord × Option Str :=
  fuzzLoop params placeholder fileRoot invoke words.length 0 words

/- ---- Statement-side notions and concrete fixtures used by the claims ---- -/

/-- Substring test: whether `needle` occurs contiguously inside `hay`. -/
def isSub (needle : Str) : Str → Bool
  | [] => needle == []
  | c :: rest => isPfx needle (c :: rest) || isSub needle rest

/-- Whether a tool object matches a requested name: its `name` field is a
string equal to the requested name up to ASCII case. -/
def toolMatches (name : Str) (t : Json) : Bool :=
  match (t.getKey kwName).bind Json.asStr with
  | some n => decide (eqIgnoreAsciiCase n name)
  | none => false

/-- The discovered tool list of a listing response value (empty when the
`tools` field is absent or not an array). -/
def toolsListOf (value : Json) : List Json :=
  ((value.getKey kwTools).bind Json.asArray).getD []

def kwId : Str := "id".toList
def kwObjectT : Str := "object".toList
def strDemo : Str := "demo".toList
def kwX : Str := "x".toList

/-- The tool object of the specification example: schema with
`required=["id"]` and `properties={id:{type:"integer"}}`. -/
def demoTool : List (Str × Json) :=
  [(kwName, Json.str strDemo),
   (kwInputSchemaSnake, Json.obj
     [(kwType, Json.str kwObjectT),
      (kwRequired, Json.arr [Json.str kwId]),
      (kwProperties, Json.obj [(kwId, Json.obj [(kwType, Json.str kwInteger)])])])]

/-- A tool object whose schema lists a required name that is not among
its properties. -/
def unlistedRequiredTool : List (Str × Json) :=
  [(kwName, Json.str strDemo),
   (kwInputSchemaSnake, Json.obj
     [(kwRequired, Json.arr [Json.str kwX]),
      (kwProperties, Json.obj [])])]

/-- A tool object that declares its schema only under the camelCase
`inputSchema` key. -/
def camelTool : List (Str × Json) :=
  [(kwName, Json.str strDemo),
   (kwInputSchemaCamel, Json.obj
     [(kwRequired, Json.arr [Json.str kwId]),
      (kwProperties, Json.obj [(kwId, Json.obj [(kwType, Json.str kwInteger)])])])]

/-- The required-field invariant exactly as the specification states it:
schema construction either fails with a message containing
"missing required parameter" naming a missing required property, or
succeeds with every required name present as a key of the result. -/
def requiredInvariantClaim (tool : List (Str × Json))
    (provided : List (Str × Str)) : Prop :=
  match build_arguments_from_schema tool provided with
  | .error e => isSub msgMissingRequired e = true ∧
      ∃ p, p ∈ requiredOf tool ∧ lookupStr provided p = none ∧ e = missingRequiredMsg p
  | .ok result => ∀ p ∈ requiredOf tool, (getField result p).isSome = true

def strAlpha : Str := "Alpha".toList
def strBeta : Str := "beta".toList
def strALPHA : Str := "ALPHA".toList

/-- The discovery value of the lookup example: tools named Alpha and
beta. -/
def alphaBetaTools : Json :=
  Json.obj [(kwTools, Json.arr
    [Json.obj [(kwName, Json.str strAlpha)],
     Json.obj [(kwName, Json.str strBeta)]])]

def kwA : Str := "a".toList
def kwB : Str := "b".toList
def strOverride : Str := "override".toList

/-- The parameter file of the merge example, already parsed:
a JSON object with a equal to 1 and b equal to the string x. -/
def mergeExampleRoot : Json :=
  Json.obj [(kwA, Json.num 1), (kwB, Json.str kwX)]

def str10 : Str := "10".toList
def str42 : Str := "42".toList
def strX42 : Str := "x42".toList
def strNaN : Str := "NaN".toList
def strBigExp : Str := "1e999".toList
def strThreeHalves : Str := "1.5".toList
def strHalf : Str := "0.5".toList
def strArrEx : Str := "a,b, c".toList

def strHttpsEx : Str := "https://example.com/mcp".toList
def strWssEx : Str := "wss://host/ws".toList
def strLocalEx : Str := "my-server --flag".toList
def strQuotedEx : Str := "my-server --path \"/tmp/my dir\"".toList
def strFtpEx : Str := "ftp://example.com/resource".toList
def strSpaces : Str := "   ".toList
def kwEmptyWord : Str := "empty".toList
def strMyServer : Str := "my-server".toList
def strFlagTok : Str := "--flag".toList
def strPathTok : Str := "--path".toList
def strTmpDirTok : Str := "/tmp/my dir".toList

def phFUZZ : Str := "FUZZ".toList
def fuzzCexKv : Str := "FUZZ=v".toList
def strW1 : Str := "w1".toList
def strW2 : Str := "w2".toList
def strW3 : Str := "w3".toList
def fuzzSubstKv : Str := "aFUZZb=cFUZZd".toList
def strWword : Str := "W".toList

def kwC : Str := "c".toList

/- ---- Helper lemmas ---- -/

theorem isPfx_append_self (l t : Str) : isPfx l (l ++ t) = true := by
  induction l with
  | nil => rfl
  | cons c cs ih => simp [isPfx, ih]

theorem isSub_append_self (l t : Str) : isSub l (l ++ t) = true := by
  cases l with
  | nil => cases t <;> simp [isSub, isPfx]
  | cons c cs =>
    show isSub (c :: cs) (c :: (cs ++ t)) = true
    unfold isSub
    rw [Bool.or_eq_true]
    exact Or.inl (isPfx_append_self (c :: cs) t)

theorem coerce_integer_eq (raw : Str) :
    coerce_value raw kwInteger =
      (match parseI64 raw with
       | some n => Json.num n
       | none => Json.str raw) := rfl

theorem coerce_number_eq (raw : Str) :
    coerce_value raw kwNumber =
      (match parseF64 raw with
       | some (F64Val.finite q) => Json.fnum q
       | _ => Json.str raw) := rfl

theorem coerce_array_eq (raw : Str) :
    coerce_value raw kwArray =
      Json.arr ((splitOnChar ',' raw).map fun seg => Json.str (trim seg)) := rfl

theorem splitOnChar_eq_splitOn (sep : Char) (s : Str) :
    splitOnChar sep s = s.splitOn sep := by
  induction s with
  | nil => rfl
  | cons c cs ih =>
    unfold splitOnChar
    rw [ih]
    by_cases h : c = sep
    · simp [List.splitOn, h]
    · cases hs : cs.splitOn sep with
      | nil => exact absurd hs (List.splitOnP_ne_nil _ cs)
      | cons hd tl =>
        have hs2 : List.splitOnP (fun x => x == sep) cs = hd :: tl := hs
        simp [List.splitOn, List.splitOnP_cons, h, hs2, List.modifyHead]

theorem intercalate_splitOnChar (sep : Char) (s : Str) :
    List.intercalate [sep] (splitOnChar sep s) = s := by
  rw [splitOnChar_eq_splitOn]
  exact List.intercalate_splitOn s sep

theorem splitOnChar_not_mem (sep : Char) (s : Str) :
    ∀ seg ∈ splitOnChar sep s, sep ∉ seg := by
  induction s with
  | nil =>
    intro seg h
    simp [splitOnChar] at h
    simp [h]
  | cons c cs ih =>
    intro seg hseg
    unfold splitOnChar at hseg
    by_cases h : c = sep
    · simp [h] at hseg
      rcases hseg with hseg | hseg
      · simp [hseg]
      · exact ih seg hseg
    · cases hs : splitOnChar sep cs with
      | nil => exact absurd hs (by rw [splitOnChar_eq_splitOn]; exact List.splitOnP_ne_nil _ cs)
      | cons hd tl =>
        rw [hs] at hseg
        simp [h] at hseg
        rcases hseg with hseg | hseg
        · subst hseg
          intro hmem
          rcases List.mem_cons.mp hmem with hc | hc
          · exact h hc.symm
          · exact ih hd (by rw [hs]; exact List.mem_cons_self hd tl) hc
        · exact ih seg (by rw [hs]; exact List.mem_cons_of_mem hd hseg)

theorem findToolIn_some_mem (name : Str) (arr : List Json) (t : Json)
    (h : findToolIn name arr = some t) : t ∈ arr ∧ toolMatches name t = true := by
  induction arr with
  | nil => simp [findToolIn] at h
  | cons x rest ih =>
    unfold findToolIn at h
    split at h
    · rename_i n hm
      by_cases he : eqIgnoreAsciiCase n name
      · rw [if_pos he] at h
        have hx : x = t := by injection h
        subst hx
        refine ⟨List.mem_cons_self x rest, ?_⟩
        simp [toolMatches, hm, he]
      · rw [if_neg he] at h
        have := ih h
        exact ⟨List.mem_cons_of_mem x this.1, this.2⟩
    · rename_i hm
      have := ih h
      exact ⟨List.mem_cons_of_mem x this.1, this.2⟩

theorem findToolIn_none_iff (name : Str) (arr : List Json) :
    findToolIn name arr = none ↔ ∀ t ∈ arr, toolMatches name t = false := by
  induction arr with
  | nil => simp [findToolIn]
  | cons x rest ih =>
    unfold findToolIn
    split
    · rename_i n hm
      by_cases he : eqIgnoreAsciiCase n name
      · rw [if_pos he]
        constructor
        · intro hcontra; exact absurd hcontra (by simp)
        · intro hall
          have hx := hall x (List.mem_cons_self x rest)
          simp [toolMatches, hm, he] at hx
      · rw [if_neg he, ih]
        constructor
        · intro hall t ht
          rcases List.mem_cons.mp ht with ht | ht
          · subst ht; simp [toolMatches, hm, he]
          · exact hall t ht
        · intro hall t ht
          exact hall t (List.mem_cons_of_mem x ht)
    · rename_i hm
      rw [ih]
      constructor
      · intro hall t ht
        rcases List.mem_cons.mp ht with ht | ht
        · subst ht; simp [toolMatches, hm]
        · exact hall t ht
      · intro hall t ht
        exact hall t (List.mem_cons_of_mem x ht)

theorem lookupStr_append_of_isSome (m extra : List (Str × Str)) (k : Str)
    (h : (lookupStr m k).isSome) : lookupStr (m ++ extra) k = lookupStr m k := by
  induction m with
  | nil => simp [lookupStr] at h
  | cons kv rest ih =>
    obtain ⟨k0, v0⟩ := kv
    by_cases hk : k0 = k
    · simp [lookupStr, hk]
    · simp only [lookupStr, if_neg hk] at h ⊢
      exact ih h

theorem lookupStr_append_of_none (m extra : List (Str × Str)) (k : Str)
    (h : lookupStr m k = none) : lookupStr (m ++ extra) k = lookupStr extra k := by
  induction m with
  | nil => rfl
  | cons kv rest ih =>
    obtain ⟨k0, v0⟩ := kv
    by_cases hk : k0 = k
    · simp [lookupStr, hk] at h
    · simp only [lookupStr, if_neg hk] at h ⊢
      exact ih h

theorem mergeFileFields_lookup_cli (fields : List (Str × Json)) :
    ∀ provided k, (lookupStr provided k).isSome →
      lookupStr (mergeFileFields fields provided) k = lookupStr provided k := by
  induction fields with
  | nil => intro provided k _; rfl
  | cons f rest ih =>
    intro provided k h
    obtain ⟨fk, fv⟩ := f
    unfold mergeFileFields
    by_cases hf : (lookupStr provided fk).isSome
    · rw [if_pos hf]
      exact ih provided k h
    · rw [if_neg hf]
      have hsome : (lookupStr (provided ++ [(fk, stringifyParamValue fv)]) k).isSome := by
        rw [lookupStr_append_of_isSome _ _ _ h]
        exact h
      rw [ih _ k hsome]
      exact lookupStr_append_of_isSome _ _ _ h

theorem mergeFileFields_lookup_file (fields : List (Str × Json)) :
    ∀ provided k v, getField fields k = some v → lookupStr provided k = none →
      lookupStr (mergeFileFields fields provided) k = some (stringifyParamValue v) := by
  induction fields with
  | nil => intro provided k v hv _; simp [getField] at hv
  | cons f rest ih =>
    intro provided k v hv hnone
    obtain ⟨fk, fv⟩ := f
    unfold mergeFileFields
    by_cases hk : fk = k
    · subst hk
      have hv2 : fv = v := by
        simp [getField] at hv
        exact hv
      subst hv2
      rw [if_neg (by simp [hnone])]
      have hsome : lookupStr (provided ++ [(fk, stringifyParamValue fv)]) fk =
          some (stringifyParamValue fv) := by
        rw [lookupStr_append_of_none _ _ _ hnone]
        simp [lookupStr]
      rw [mergeFileFields_lookup_cli rest _ fk (by rw [hsome]; rfl)]
      exact hsome
    · have hv2 : getField rest k = some v := by
        simpa [getField, hk] using hv
      by_cases hf : (lookupStr provided fk).isSome
      · rw [if_pos hf]
        exact ih provided k v hv2 hnone
      · rw [if_neg hf]
        apply ih _ k v hv2
        rw [lookupStr_append_of_none _ _ _ hnone]
        simp [lookupStr, hk]

theorem stringify_num_one : stringifyParamValue (Json.num 1) = kwOne := by
  simp [stringifyParamValue, jsonToString, intToStr, natToStr, natToStrAux, digitChar, kwOne]

/- ---- Claim theorems (coercion engine) ---- -/

/-- C7: for every string parseable as a signed 64-bit integer, coercion
with type hint integer yields the JSON number with that value; for every
other string it yields the original string unchanged rather than an
error. -/
theorem coerce_integer_spec :
    (∀ s n, parseI64 s = some n → coerce_value s kwInteger = Json.num n) ∧
    (∀ s, parseI64 s = none → coerce_value s kwInteger = Json.str s) := by
  constructor
  · intro s n h
    rw [coerce_integer_eq, h]
  · intro s h
    rw [coerce_integer_eq, h]

/-- Witness for C7 at the unit-test inputs of the source: 42 coerces to
the number 42 and x42 stays a string. -/
theorem coerce_integer_spec_witness :
    coerce_value str42 kwInteger = Json.num 42 ∧
    coerce_value strX42 kwInteger = Json.str strX42 :=
  ⟨coerce_integer_spec.1 str42 42 rfl, coerce_integer_spec.2 strX42 rfl⟩

theorem exists_finite_of_parsesFiniteF64 (raw : Str) (h : parsesFiniteF64 raw = true) :
    ∃ q, parseF64 raw = some (F64Val.finite q) := by
  unfold parsesFiniteF64 at h
  cases hp : parseF64 raw with
  | none => rw [hp] at h; exact absurd h (by simp)
  | some v =>
    cases v with
    | finite q => exact ⟨q, rfl⟩
    | infinite => rw [hp] at h; simp [F64Val.isFinite] at h
    | nan => rw [hp] at h; simp [F64Val.isFinite] at h

set_option maxRecDepth 8000 in
/-- C8: coercion with type hint number yields a JSON number exactly when
the string parses as a finite 64-bit float; a parse yielding NaN or an
infinity is treated as unparsable, and any unparsable string is kept
unchanged as a JSON string. -/
theorem coerce_number_finite_spec :
    (∀ raw q, parseF64 raw = some (F64Val.finite q) →
        coerce_value raw kwNumber = Json.fnum q) ∧
    (∀ raw, parseF64 raw = some F64Val.infinite ∨ parseF64 raw = some F64Val.nan →
        coerce_value raw kwNumber = Json.str raw) ∧
    (∀ raw, parseF64 raw = none → coerce_value raw kwNumber = Json.str raw) ∧
    (∀ raw, (∃ q, coerce_value raw kwNumber = Json.fnum q) ↔
        (∃ q, parseF64 raw = some (F64Val.finite q))) ∧
    parseF64 strNaN = some F64Val.nan ∧
    coerce_value strNaN kwNumber = Json.str strNaN ∧
    parseF64 strBigExp = some F64Val.infinite ∧
    coerce_value strBigExp kwNumber = Json.str strBigExp ∧
    (∃ q, coerce_value strThreeHalves kwNumber = Json.fnum q) := by
  have h1 : ∀ raw q, parseF64 raw = some (F64Val.finite q) →
      coerce_value raw kwNumber = Json.fnum q := by
    intro raw q h
    rw [coerce_number_eq, h]
  have h2 : ∀ raw, parseF64 raw = some F64Val.infinite ∨ parseF64 raw = some F64Val.nan →
      coerce_value raw kwNumber = Json.str raw := by
    intro raw h
    rcases h with h | h <;> rw [coerce_number_eq, h]
  have h3 : ∀ raw, parseF64 raw = none → coerce_value raw kwNumber = Json.str raw := by
    intro raw h
    rw [coerce_number_eq, h]
  have h4 : ∀ raw, (∃ q, coerce_value raw kwNumber = Json.fnum q) ↔
      (∃ q, parseF64 raw = some (F64Val.finite q)) := by
    intro raw
    constructor
    · rintro ⟨q, hq⟩
      rw [coerce_number_eq] at hq
      cases hp : parseF64 raw with
      | none => rw [hp] at hq; exact absurd hq (by simp)
      | some v =>
        cases v with
        | finite q2 => exact ⟨q2, rfl⟩
        | infinite => rw [hp] at hq; exact absurd hq (by simp)
        | nan => rw [hp] at hq; exact absurd hq (by simp)
    · rintro ⟨q, hq⟩
      exact ⟨q, by rw [coerce_number_eq, hq]⟩
  have hnan : parseF64 strNaN = some F64Val.nan := by decide
  have hbig : parseF64 strBigExp = some F64Val.infinite := by decide
  obtain ⟨q, hq⟩ := exists_finite_of_parsesFiniteF64 strThreeHalves (by decide)
  exact ⟨h1, h2, h3, h4, hnan, h2 strNaN (Or.inr hnan), hbig,
    h2 strBigExp (Or.inl hbig), ⟨q, h1 strThreeHalves q hq⟩⟩

set_option maxRecDepth 8000 in
/-- Witness for C8: the string 0.5 parses finite and coerces to a
number. -/
theorem coerce_number_finite_spec_witness :
    (∃ q, coerce_value strHalf kwNumber = Json.fnum q) :=
  (coerce_number_finite_spec.2.2.2.1 strHalf).mpr
    (exists_finite_of_parsesFiniteF64 strHalf (by decide))

/-- C9: coercion with type hint array never fails and yields the JSON
array of the comma-separated segments of the raw string, each trimmed of
surrounding whitespace, with no further per-element coercion; the
segments interleaved with commas reconstruct the raw string and contain
no comma, and coerce of a,b,space c is the array a, b, c. -/
theorem coerce_array_spec :
    (∀ raw, coerce_value raw kwArray =
        Json.arr ((splitOnChar ',' raw).map fun seg => Json.str (trim seg))) ∧
    (∀ raw, List.intercalate [','] (splitOnChar ',' raw) = raw) ∧
    (∀ raw seg, seg ∈ splitOnChar ',' raw → ',' ∉ seg) ∧
    coerce_value strArrEx kwArray =
      Json.arr [Json.str kwA, Json.str kwB, Json.str kwC] := by
  refine ⟨fun raw => coerce_array_eq raw, fun raw => intercalate_splitOnChar ',' raw,
    fun raw seg h => splitOnChar_not_mem ',' raw seg h, rfl⟩

/-- Witness for C9: the membership conjunct applied to the example
input, first segment. -/
theorem coerce_array_spec_witness :
    ',' ∉ kwA :=
  coerce_array_spec.2.2.1 strArrEx kwA (by decide)

/- ---- Claim theorems (tool lookup) ---- -/

/-- C6: tool resolution returns a descriptor whose name equals the
requested name under case-insensitive comparison, reports the tool
not found failure exactly when no tool in the list matches, and looking
up ALPHA among Alpha and beta returns the Alpha descriptor. -/
theorem find_tool_case_insensitive_spec :
    (∀ value name t, find_tool_case_insensitive value name = some t →
        t ∈ toolsListOf value ∧ toolMatches name t = true) ∧
    (∀ value name, find_tool_case_insensitive value name = none ↔
        ∀ t ∈ toolsListOf value, toolMatches name t = false) ∧
    (∀ value name, resolveTool value name = Except.error (toolNotFoundMsg name) ↔
        find_tool_case_insensitive value name = none) ∧
    find_tool_case_insensitive alphaBetaTools strALPHA =
      some (Json.obj [(kwName, Json.str strAlpha)]) := by
  refine ⟨?_, ?_, ?_, rfl⟩
  · intro value name t h
    unfold find_tool_case_insensitive at h
    cases harr : (value.getKey kwTools).bind Json.asArray with
    | none => rw [harr] at h; exact absurd h (by simp)
    | some arr =>
      rw [harr] at h
      have := findToolIn_some_mem name arr t h
      simpa [toolsListOf, harr] using this
  · intro value name
    unfold find_tool_case_insensitive
    cases harr : (value.getKey kwTools).bind Json.asArray with
    | none => simp [toolsListOf, harr]
    | some arr => simp [toolsListOf, harr, findToolIn_none_iff]
  · intro value name
    unfold resolveTool
    cases hf : find_tool_case_insensitive value name <;> simp

/-- Witness for C6: the found-descriptor conjunct at the Alpha example. -/
theorem find_tool_case_insensitive_spec_witness :
    Json.obj [(kwName, Json.str strAlpha)] ∈ toolsListOf alphaBetaTools ∧
    toolMatches strALPHA (Json.obj [(kwName, Json.str strAlpha)]) = true :=
  find_tool_case_insensitive_spec.1 alphaBetaTools strALPHA
    (Json.obj [(kwName, Json.str strAlpha)]) rfl

/- ---- Claim theorems (interactive prompting) ---- -/

/-- C10: for every tool object without the snake_case input_schema key,
interactive prompting returns successfully, performs no prompt and
leaves the provided map unchanged, even though the same tool can declare
required properties under the camelCase inputSchema key, which
build_arguments_from_schema does recognize (shown on a concrete tool
whose camelCase schema makes argument building fail for a missing
required parameter). -/
theorem prompt_ignores_camel_schema :
    (∀ tool_obj provided input, getField tool_obj kwInputSchemaSnake = none →
        prompt_for_missing_required tool_obj provided input = some (provided, input, [])) ∧
    getField camelTool kwInputSchemaSnake = none ∧
    build_arguments_from_schema camelTool [] = Except.error (missingRequiredMsg kwId) := by
  refine ⟨?_, rfl, rfl⟩
  intro tool_obj provided input h
  unfold prompt_for_missing_required
  rw [h]
  rfl

/-- Witness for C10: prompting on the camelCase-only tool leaves a
nonempty provided map and the stdin stream untouched. -/
theorem prompt_ignores_camel_schema_witness :
    prompt_for_missing_required camelTool [(kwA, kwB)] [kwC] =
      some ([(kwA, kwB)], [kwC], []) :=
  prompt_ignores_camel_schema.1 camelTool [(kwA, kwB)] [kwC] rfl

/- ---- Claim theorems (parameter file merge) ---- -/

/-- C3: merging a parameter file into a CLI-sourced map inserts every
root-object key not already present (string values verbatim, non-string
values as their JSON text) and keeps the CLI value for every key already
present; for the file with a equal to 1 and b equal to x over an
existing entry b, the merged map has a rendered as 1 and b keeping the
CLI value. -/
theorem load_param_file_merge_spec :
    (∀ fields provided merged k,
        load_param_file_into_map (Json.obj fields) provided = Except.ok merged →
        (lookupStr provided k).isSome →
        lookupStr merged k = lookupStr provided k) ∧
    (∀ fields provided merged k v,
        load_param_file_into_map (Json.obj fields) provided = Except.ok merged →
        getField fields k = some v → lookupStr provided k = none →
        lookupStr merged k = some (stringifyParamValue v)) ∧
    (∀ s, stringifyParamValue (Json.str s) = s) ∧
    (∀ v, (∀ s, v ≠ Json.str s) → stringifyParamValue v = jsonToString v) ∧
    load_param_file_into_map mergeExampleRoot [(kwB, strOverride)] =
      Except.ok [(kwB, strOverride), (kwA, kwOne)] := by
  refine ⟨?_, ?_, fun s => rfl, ?_, ?_⟩
  · intro fields provided merged k hload hsome
    have hm : mergeFileFields fields provided = merged := by
      simpa [load_param_file_into_map, Json.asObject] using hload
    rw [← hm]
    exact mergeFileFields_lookup_cli fields provided k hsome
  · intro fields provided merged k v hload hv hnone
    have hm : mergeFileFields fields provided = merged := by
      simpa [load_param_file_into_map, Json.asObject] using hload
    rw [← hm]
    exact mergeFileFields_lookup_file fields provided k v hv hnone
  · intro v hv
    cases v with
    | str s => exact absurd rfl (hv s)
    | null => rfl
    | bool b => rfl
    | num n => rfl
    | fnum q => rfl
    | arr elems => rfl
    | obj fields => rfl
  · have h0 : load_param_file_into_map mergeExampleRoot [(kwB, strOverride)] =
        Except.ok [(kwB, strOverride), (kwA, stringifyParamValue (Json.num 1))] := rfl
    rw [stringify_num_one] at h0
    exact h0

/-- Witness for C3: both merge conjuncts applied at the concrete
example, showing b keeps the CLI value and a carries the rendered file
value. -/
theorem load_param_file_merge_spec_witness :
    lookupStr [(kwB, strOverride), (kwA, kwOne)] kwB =
      lookupStr [(kwB, strOverride)] kwB ∧
    lookupStr [(kwB, strOverride), (kwA, kwOne)] kwA =
      some (stringifyParamValue (Json.num 1)) := by
  have hload := load_param_file_merge_spec.2.2.2.2
  constructor
  · exact load_param_file_merge_spec.1 [(kwA, Json.num 1), (kwB, Json.str kwX)]
      [(kwB, strOverride)] [(kwB, strOverride), (kwA, kwOne)] kwB hload (by decide)
  · exact load_param_file_merge_spec.2.1 [(kwA, Json.num 1), (kwB, Json.str kwX)]
      [(kwB, strOverride)] [(kwB, strOverride), (kwA, kwOne)] kwA (Json.num 1) hload rfl rfl

/- ---- Claim theorems (required-field invariant) ---- -/

theorem getField_append_of_isSome (l1 l2 : List (Str × Json)) (k : Str)
    (h : (getField l1 k).isSome) : getField (l1 ++ l2) k = getField l1 k := by
  induction l1 with
  | nil => simp [getField] at h
  | cons kv rest ih =>
    obtain ⟨k0, v0⟩ := kv
    by_cases hk : k0 = k
    · simp [getField, hk]
    · simp only [getField, if_neg hk] at h ⊢
      exact ih h

theorem getField_append_of_none (l1 l2 : List (Str × Json)) (k : Str)
    (h : getField l1 k = none) : getField (l1 ++ l2) k = getField l2 k := by
  induction l1 with
  | nil => rfl
  | cons kv rest ih =>
    obtain ⟨k0, v0⟩ := kv
    by_cases hk : k0 = k
    · simp [getField, hk] at h
    · simp only [getField, if_neg hk] at h ⊢
      exact ih h

theorem lookupRemove_none_iff (m : List (Str × Str)) (k : Str) :
    lookupRemove m k = none ↔ lookupStr m k = none := by
  induction m with
  | nil => simp [lookupRemove, lookupStr]
  | cons kv rest ih =>
    obtain ⟨k0, v0⟩ := kv
    by_cases hk : k0 = k
    · simp [lookupRemove, lookupStr, hk]
    · simp [lookupRemove, lookupStr, hk, ih]

theorem lookupRemove_some_lookup (m : List (Str × Str)) (k : Str) (v : Str)
    (m' : List (Str × Str)) (h : lookupRemove m k = some (v, m')) :
    ∀ k2, k2 ≠ k → lookupStr m' k2 = lookupStr m k2 := by
  induction m generalizing v m' with
  | nil => simp [lookupRemove] at h
  | cons kv rest ih =>
    obtain ⟨k0, v0⟩ := kv
    intro k2 hk2
    by_cases hk : k0 = k
    · subst hk
      have h2 : some (v0, rest) = some (v, m') := by
        rw [← h]
        simp [lookupRemove]
      injection h2 with h3
      injection h3 with hv hm
      subst hm
      show lookupStr rest k2 = lookupStr ((k0, v0) :: rest) k2
      simp only [lookupStr]
      rw [if_neg (fun hc => hk2 hc.symm)]
    · simp only [lookupRemove, if_neg hk] at h
      cases hrem : lookupRemove rest k with
      | none => rw [hrem] at h; simp at h
      | some pr =>
        obtain ⟨v2, rest2⟩ := pr
        rw [hrem] at h
        have h2 : some (v2, (k0, v0) :: rest2) = some (v, m') := by
          rw [← h]
          rfl
        injection h2 with h3
        injection h3 with hv hm
        subst hm
        by_cases hk0 : k0 = k2
        · simp [lookupStr, hk0]
        · simp only [lookupStr, if_neg hk0]
          exact ih v2 rest2 hrem k2 hk2

theorem buildArgsLoop_extends (required : List Str) :
    ∀ props remaining result res rem,
      buildArgsLoop required props remaining result = Except.ok (res, rem) →
      ∀ k, (getField result k).isSome → (getField res k).isSome := by
  intro props
  induction props with
  | nil =>
    intro remaining result res rem h k hk
    simp only [buildArgsLoop, Except.ok.injEq, Prod.mk.injEq] at h
    rw [← h.1]
    exact hk
  | cons f rest ih =>
    intro remaining result res rem h k hk
    obtain ⟨pname, pobj⟩ := f
    unfold buildArgsLoop at h
    cases hrem : lookupRemove remaining pname with
    | some pr =>
      obtain ⟨rawv, remaining2⟩ := pr
      rw [hrem] at h
      refine ih _ _ _ _ h k ?_
      by_cases hres : (getField result k).isSome
      · rw [getField_append_of_isSome _ _ _ hres]
        exact hres
      · exact absurd hk hres
    | none =>
      rw [hrem] at h
      by_cases hin : pname ∈ required
      · rw [if_pos hin] at h
        exact absurd h (by simp)
      · rw [if_neg hin] at h
        exact ih _ _ _ _ h k hk

theorem buildArgsLoop_ok_required (required : List Str) :
    ∀ props remaining result res rem,
      buildArgsLoop required props remaining result = Except.ok (res, rem) →
      ∀ p, p ∈ required → p ∈ props.map Prod.fst → (getField res p).isSome := by
  intro props
  induction props with
  | nil =>
    intro remaining result res rem _ p _ hmem
    simp at hmem
  | cons f rest ih =>
    intro remaining result res rem h p hreq hmem
    obtain ⟨pname, pobj⟩ := f
    simp only [List.map_cons, List.mem_cons] at hmem
    unfold buildArgsLoop at h
    cases hrem : lookupRemove remaining pname with
    | some pr =>
      obtain ⟨rawv, remaining2⟩ := pr
      rw [hrem] at h
      rcases hmem with rfl | hmem
      · refine buildArgsLoop_extends required rest _ _ _ _ h p ?_
        by_cases hres : (getField result p).isSome
        · rw [getField_append_of_isSome _ _ _ hres]
          exact hres
        · have hnone : getField result p = none := by
            cases hgf : getField result p
            · rfl
            · rw [hgf] at hres; exact absurd rfl hres
          rw [getField_append_of_none _ _ _ hnone]
          simp [getField]
      · exact ih _ _ _ _ h p hreq hmem
    | none =>
      rw [hrem] at h
      by_cases hin : pname ∈ required
      · rw [if_pos hin] at h
        exact absurd h (by simp)
      · rw [if_neg hin] at h
        rcases hmem with rfl | hmem
        · exact absurd hreq hin
        · exact ih _ _ _ _ h p hreq hmem

theorem buildArgsLoop_error (required : List Str) :
    ∀ props remaining result e,
      (props.map Prod.fst).Nodup →
      buildArgsLoop required props remaining result = Except.error e →
      ∃ p, p ∈ required ∧ p ∈ props.map Prod.fst ∧ e = missingRequiredMsg p ∧
        lookupStr remaining p = none := by
  intro props
  induction props with
  | nil =>
    intro remaining result e _ h
    exact absurd h (by simp [buildArgsLoop])
  | cons f rest ih =>
    intro remaining result e hnodup h
    obtain ⟨pname, pobj⟩ := f
    simp only [List.map_cons, List.nodup_cons] at hnodup
    obtain ⟨hnotin, hnodup2⟩ := hnodup
    unfold buildArgsLoop at h
    cases hrem : lookupRemove remaining pname with
    | some pr =>
      obtain ⟨rawv, remaining2⟩ := pr
      rw [hrem] at h
      obtain ⟨p, hreq, hmem, he, hlook⟩ := ih _ _ _ hnodup2 h
      have hne : p ≠ pname := fun hcontra => hnotin (hcontra ▸ hmem)
      refine ⟨p, hreq, by rw [List.map_cons]; exact List.mem_cons_of_mem _ hmem, he, ?_⟩
      rw [← lookupRemove_some_lookup remaining pname rawv remaining2 hrem p hne]
      exact hlook
    | none =>
      rw [hrem] at h
      by_cases hin : pname ∈ required
      · rw [if_pos hin] at h
        refine ⟨pname, hin, by rw [List.map_cons]; exact List.mem_cons_self _ _, ?_,
          (lookupRemove_none_iff remaining pname).mp hrem⟩
        injection h with he
        exact he.symm
      · rw [if_neg hin] at h
        obtain ⟨p, hreq, hmem, he, hlook⟩ := ih _ _ _ hnodup2 h
        exact ⟨p, hreq, by rw [List.map_cons]; exact List.mem_cons_of_mem _ hmem, he, hlook⟩

/-- Counterexample for C1: a schema whose required set names a property
that is not listed under properties is not enforced — with required
x, empty properties and an empty provided map, construction succeeds
and x is absent from the result, contradicting the invariant as
stated. -/
theorem build_arguments_required_unenforced_cex :
    ¬ requiredInvariantClaim unlistedRequiredTool [] := by
  intro h
  unfold requiredInvariantClaim at h
  have hb : build_arguments_from_schema unlistedRequiredTool [] = Except.ok [] := rfl
  rw [hb] at h
  have hx := h kwX (by decide)
  simp [getField] at hx

/-- C1 (amended): with a nodup property list, construction either fails
with the message missing required parameter followed by the name of
some required property that is listed under properties and absent from
the provided map, or succeeds with every required name that is listed
under properties present as a key of the result; required names not
listed under properties are not enforced.  The concrete examples hold:
with required id and an empty map it fails with a message containing
missing required parameter, and with id set to 10 it succeeds yielding
the object with id mapped to the number 10. -/
theorem build_arguments_required_amended :
    (∀ tool provided e, ((propsOf tool).map Prod.fst).Nodup →
        build_arguments_from_schema tool provided = Except.error e →
        ∃ p, p ∈ requiredOf tool ∧ p ∈ (propsOf tool).map Prod.fst ∧
          lookupStr provided p = none ∧ e = missingRequiredMsg p ∧
          isSub msgMissingRequired e = true) ∧
    (∀ tool provided result,
        build_arguments_from_schema tool provided = Except.ok result →
        ∀ p, p ∈ requiredOf tool → p ∈ (propsOf tool).map Prod.fst →
          (getField result p).isSome = true) ∧
    build_arguments_from_schema demoTool [] =
      Except.error (missingRequiredMsg kwId) ∧
    isSub msgMissingRequired (missingRequiredMsg kwId) = true ∧
    build_arguments_from_schema demoTool [(kwId, str10)] =
      Except.ok [(kwId, Json.num 10)] := by
  refine ⟨?_, ?_, rfl, isSub_append_self msgMissingRequired kwId, rfl⟩
  · intro tool provided e hnodup h
    unfold build_arguments_from_schema at h
    cases hb : buildArgsLoop (requiredOf tool) (propsOf tool) provided [] with
    | error e0 =>
      rw [hb] at h
      have he : e0 = e := by injection h
      subst he
      obtain ⟨p, hreq, hmem, hmsg, hlook⟩ :=
        buildArgsLoop_error (requiredOf tool) (propsOf tool) provided [] e0 hnodup hb
      exact ⟨p, hreq, hmem, hlook, hmsg, by rw [hmsg]; exact isSub_append_self _ _⟩
    | ok pr =>
      rw [hb] at h
      exact absurd h (by simp)
  · intro tool provided result h p hreq hmem
    unfold build_arguments_from_schema at h
    cases hb : buildArgsLoop (requiredOf tool) (propsOf tool) provided [] with
    | error e0 =>
      rw [hb] at h
      exact absurd h (by simp)
    | ok pr =>
      obtain ⟨res, rem⟩ := pr
      rw [hb] at h
      have hres : res ++ rem.map (fun kv => (kv.1, Json.str kv.2)) = result := by
        injection h
      rw [← hres]
      have hsome := buildArgsLoop_ok_required (requiredOf tool) (propsOf tool)
        provided [] res rem hb p hreq hmem
      rw [getField_append_of_isSome _ _ _ hsome]
      exact hsome

/-- Witness for C1 (amended): the failure conjunct at the example tool
with an empty map, and the success conjunct at id set to 10. -/
theorem build_arguments_required_amended_witness :
    (∃ p, p ∈ requiredOf demoTool ∧ p ∈ (propsOf demoTool).map Prod.fst ∧
        lookupStr [] p = none ∧ missingRequiredMsg kwId = missingRequiredMsg p ∧
        isSub msgMissingRequired (missingRequiredMsg kwId) = true) ∧
    (getField [(kwId, Json.num 10)] kwId).isSome = true := by
  constructor
  · exact build_arguments_required_amended.1 demoTool [] (missingRequiredMsg kwId)
      (by decide) rfl
  · exact build_arguments_required_amended.2.1 demoTool [(kwId, str10)]
      [(kwId, Json.num 10)] rfl kwId (by decide) (by decide)

/- ---- Claim theorems (target parsing) ---- -/

theorem urlParse_nil : urlParse [] = none := rfl

/-- C2: parse_target fails on whitespace-only input with a message
mentioning empty; a parsed URL with scheme http or https classifies as
remote-http, ws or wss as remote-ws; any other parsed scheme falls
through to the shell-style command path; when URL parsing fails, the
first shell token becomes the program and the remaining tokens the
arguments in order.  The six specification examples hold, including the
quoted command whose quoted whitespace stays one token. -/
theorem parse_target_classification_spec :
    (∀ raw, trim raw = [] →
        parse_target raw = Except.error msgTargetEmpty ∧
        isSub kwEmptyWord msgTargetEmpty = true) ∧
    (∀ raw url, urlParse (trim raw) = some url →
        url.scheme = kwHttp ∨ url.scheme = kwHttps →
        parse_target raw = Except.ok (TargetSpec.remoteUrl raw url) ∧
        (TargetSpec.remoteUrl raw url).kind = TargetKind.remoteHttp) ∧
    (∀ raw url, urlParse (trim raw) = some url →
        url.scheme = kwWs ∨ url.scheme = kwWss →
        parse_target raw = Except.ok (TargetSpec.remoteUrl raw url) ∧
        (TargetSpec.remoteUrl raw url).kind = TargetKind.remoteWs) ∧
    (∀ raw url, urlParse (trim raw) = some url →
        ¬ (url.scheme = kwHttp ∨ url.scheme = kwHttps ∨ url.scheme = kwWs ∨
            url.scheme = kwWss) →
        parse_target raw = parseLocalCommand raw (trim raw)) ∧
    (∀ raw program args, urlParse (trim raw) = none → trim raw ≠ [] →
        shell_split (trim raw) = some (program :: args) → program ≠ [] →
        parse_target raw = Except.ok (TargetSpec.localCommand raw program args) ∧
        (TargetSpec.localCommand raw program args).kind = TargetKind.localProcess) ∧
    (parse_target strHttpsEx).map TargetSpec.kind = Except.ok TargetKind.remoteHttp ∧
    (parse_target strWssEx).map TargetSpec.kind = Except.ok TargetKind.remoteWs ∧
    parse_target strLocalEx =
      Except.ok (TargetSpec.localCommand strLocalEx strMyServer [strFlagTok]) ∧
    parse_target strQuotedEx =
      Except.ok (TargetSpec.localCommand strQuotedEx strMyServer [strPathTok, strTmpDirTok]) ∧
    (parse_target strFtpEx).map TargetSpec.kind = Except.ok TargetKind.localProcess ∧
    parse_target strSpaces = Except.error msgTargetEmpty := by
  refine ⟨?_, ?_, ?_, ?_, ?_, rfl, rfl, rfl, rfl, rfl, rfl⟩
  · intro raw h
    refine ⟨?_, by decide⟩
    unfold parse_target
    rw [if_pos h]
  · intro raw url hurl hs
    have hne : trim raw ≠ [] := by
      intro hnil
      rw [hnil, urlParse_nil] at hurl
      exact absurd hurl (by simp)
    have hcond : url.scheme = kwHttp ∨ url.scheme = kwHttps ∨ url.scheme = kwWs ∨
        url.scheme = kwWss := by
      rcases hs with h | h
      · exact Or.inl h
      · exact Or.inr (Or.inl h)
    constructor
    · unfold parse_target
      rw [if_neg hne]
      simp only [hurl]
      rw [if_pos hcond]
    · simp only [TargetSpec.kind]
      rw [if_pos hs]
  · intro raw url hurl hs
    have hne : trim raw ≠ [] := by
      intro hnil
      rw [hnil, urlParse_nil] at hurl
      exact absurd hurl (by simp)
    have hsne : ¬ (url.scheme = kwHttp ∨ url.scheme = kwHttps) := by
      rintro (h | h) <;> rcases hs with h2 | h2 <;> rw [h2] at h <;> exact absurd h (by decide)
    have hcond : url.scheme = kwHttp ∨ url.scheme = kwHttps ∨ url.scheme = kwWs ∨
        url.scheme = kwWss := by
      rcases hs with h | h
      · exact Or.inr (Or.inr (Or.inl h))
      · exact Or.inr (Or.inr (Or.inr h))
    constructor
    · unfold parse_target
      rw [if_neg hne]
      simp only [hurl]
      rw [if_pos hcond]
    · simp only [TargetSpec.kind]
      rw [if_neg hsne, if_pos hs]
  · intro raw url hurl hs
    have hne : trim raw ≠ [] := by
      intro hnil
      rw [hnil, urlParse_nil] at hurl
      exact absurd hurl (by simp)
    unfold parse_target
    rw [if_neg hne]
    simp only [hurl]
    rw [if_neg hs]
  · intro raw program args hurl hne hsplit hprog
    constructor
    · unfold parse_target
      rw [if_neg hne]
      simp only [hurl]
      unfold parseLocalCommand
      simp only [hsplit]
      rw [if_neg hprog]
    · rfl

/-- Witness for C2: the remote and local conjuncts applied at the
specification examples. -/
theorem parse_target_classification_spec_witness :
    (parse_target strHttpsEx =
        Except.ok (TargetSpec.remoteUrl strHttpsEx
          { scheme := kwHttps, rest := "//example.com/mcp".toList }) ∧
      (TargetSpec.remoteUrl strHttpsEx
          { scheme := kwHttps, rest := "//example.com/mcp".toList }).kind =
        TargetKind.remoteHttp) ∧
    (parse_target strLocalEx =
        Except.ok (TargetSpec.localCommand strLocalEx strMyServer [strFlagTok]) ∧
      (TargetSpec.localCommand strLocalEx strMyServer [strFlagTok]).kind =
        TargetKind.localProcess) ∧
    parse_target strSpaces = Except.error msgTargetEmpty ∧
    isSub kwEmptyWord msgTargetEmpty = true := by
  refine ⟨?_, ?_, ?_⟩
  · exact parse_target_classification_spec.2.1 strHttpsEx
      { scheme := kwHttps, rest := "//example.com/mcp".toList } rfl (Or.inr rfl)
  · exact parse_target_classification_spec.2.2.2.2.1 strLocalEx strMyServer [strFlagTok]
      rfl (by decide) rfl (by decide)
  · exact parse_target_classification_spec.1 strSpaces (by decide)

/- ---- Claim theorems (fuzzing driver) ---- -/

theorem fuzzLoop_spec (params : List Str) (ph : Str) (file : Option Json)
    (invoke : Nat → List (Str × Str) → Bool) (total : Nat) :
    ∀ words i0, (∀ w ∈ words, ∃ m, buildWordParams params ph w file = Except.ok m) →
    ∃ recs, fuzzLoop params ph file invoke total i0 words = (recs, none) ∧
      recs.length = words.length ∧
      ∀ i (hi : i < words.length), ∃ (hr : i < recs.length) (m : List (Str × Str)),
        buildWordParams params ph (words.get ⟨i, hi⟩) file = Except.ok m ∧
        recs.get ⟨i, hr⟩ =
          { index := i0 + i, total := total, word := words.get ⟨i, hi⟩,
            success := invoke (i0 + i) m } := by
  intro words
  induction words with
  | nil =>
    intro i0 _
    exact ⟨[], rfl, rfl, fun i hi => absurd hi (by simp)⟩
  | cons w rest ih =>
    intro i0 hok
    obtain ⟨m, hm⟩ := hok w (List.mem_cons_self w rest)
    obtain ⟨recs, hloop, hlen, hidx⟩ :=
      ih (i0 + 1) (fun w2 hw2 => hok w2 (List.mem_cons_of_mem w hw2))
    refine ⟨{ index := i0, total := total, word := w, success := invoke i0 m } :: recs,
      ?_, by simp [hlen], ?_⟩
    · simp only [fuzzLoop, hm, hloop]
    · intro i hi
      cases i with
      | zero =>
        refine ⟨by simp, m, hm, ?_⟩
        simp
      | succ j =>
        have hj : j < rest.length := by simpa using hi
        obtain ⟨hr, m2, hm2, hrec⟩ := hidx j hj
        refine ⟨by simpa using hr, m2, hm2, ?_⟩
        have harith : i0 + (j + 1) = (i0 + 1) + j := by omega
        rw [show (({ index := i0, total := total, word := w, success := invoke i0 m } ::
            recs).get ⟨j + 1, by simpa using hr⟩) = recs.get ⟨j, hr⟩ from rfl, harith]
        exact hrec

/-- Counterexample for C4: a two-word wordlist with the CLI parameter
FUZZ=v — the first word is the empty line, so substitution yields =v
with an empty key and the whole run aborts before any invocation,
emitting zero records instead of one per word. -/
theorem execute_fuzz_substitution_abort_cex :
    execute_fuzz_records [fuzzCexKv] phFUZZ none (fun _ _ => true) [[], kwX] =
      ([], some (invalidParamEmptyKeyMsg fuzzCexKv)) ∧
    (execute_fuzz_records [fuzzCexKv] phFUZZ none (fun _ _ => true) [[], kwX]).1.length ≠
      ([[], kwX] : List Str).length := by
  exact ⟨rfl, by decide⟩

/-- C4 (amended): provided every CLI parameter still splits into a
KEY=VALUE pair with a nonempty key after placeholder substitution for
each word (and the parameter file, if any, merges without error), the
driver runs one invocation per word in wordlist order and emits exactly
one record per word, carrying the 0-based request index and the total
count; an invocation failure only marks that record failed and never
aborts or skips subsequent words. -/
theorem execute_fuzz_isolation_amended :
    ∀ params placeholder fileRoot invoke words,
      (∀ w ∈ words, ∃ m, buildWordParams params placeholder w fileRoot = Except.ok m) →
      ∃ recs, execute_fuzz_records params placeholder fileRoot invoke words = (recs, none) ∧
        recs.length = words.length ∧
        ∀ i (hi : i < words.length), ∃ (hr : i < recs.length) (m : List (Str × Str)),
          buildWordParams params placeholder (words.get ⟨i, hi⟩) fileRoot = Except.ok m ∧
          recs.get ⟨i, hr⟩ =
            { index := i, total := words.length, word := words.get ⟨i, hi⟩,
              success := invoke i m } := by
  intro params ph file invoke words hok
  obtain ⟨recs, hloop, hlen, hidx⟩ := fuzzLoop_spec params ph file invoke words.length words 0 hok
  refine ⟨recs, hloop, hlen, ?_⟩
  intro i hi
  obtain ⟨hr, m, hm, hrec⟩ := hidx i hi
  refine ⟨hr, m, hm, ?_⟩
  simpa using hrec

/-- Witness for C4 (amended): a three-word wordlist whose second
invocation fails still yields one record per word in order, the second
marked failed. -/
theorem execute_fuzz_isolation_amended_witness :
    ∃ recs, execute_fuzz_records [] phFUZZ none (fun i _ => decide (i ≠ 1))
        [strW1, strW2, strW3] = (recs, none) ∧
      recs.length = [strW1, strW2, strW3].length ∧
      ∀ i (hi : i < [strW1, strW2, strW3].length), ∃ (hr : i < recs.length) (m : List (Str × Str)),
        buildWordParams [] phFUZZ ([strW1, strW2, strW3].get ⟨i, hi⟩) none = Except.ok m ∧
        recs.get ⟨i, hr⟩ =
          { index := i, total := [strW1, strW2, strW3].length,
            word := [strW1, strW2, strW3].get ⟨i, hi⟩, success := decide (i ≠ 1) } :=
  execute_fuzz_isolation_amended [] phFUZZ none (fun i _ => decide (i ≠ 1))
    [strW1, strW2, strW3] (fun w _ => ⟨[], rfl⟩)

/- ---- Claim theorems (placeholder substitution) ---- -/

theorem intercalate_cons₂ (w x y : Str) (t : List Str) :
    List.intercalate w (x :: y :: t) = x ++ w ++ List.intercalate w (y :: t) := by
  simp [List.intercalate, List.intersperse_cons_cons]

theorem intercalate_cons_head (w : Str) (c : Char) (seg : Str) (segs : List Str) :
    List.intercalate w ((c :: seg) :: segs) = c :: List.intercalate w (seg :: segs) := by
  cases segs with
  | nil => simp [List.intercalate]
  | cons y t =>
    rw [intercalate_cons₂, intercalate_cons₂]
    simp

theorem splitSeqFuel_ne_nil (p : Str) : ∀ fuel s, splitSeqFuel p fuel s ≠ [] := by
  intro fuel
  induction fuel with
  | zero => intro s; simp [splitSeqFuel]
  | succ fuel ih =>
    intro s
    cases s with
    | nil => simp [splitSeqFuel]
    | cons c rest =>
      unfold splitSeqFuel
      cases hpfx : isPfx p (c :: rest) with
      | true => simp
      | false =>
        simp only [Bool.false_eq_true, if_false]
        cases hsegs : splitSeqFuel p fuel rest with
        | nil => simp
        | cons seg segs => simp

theorem isPfx_append_drop (p : Str) :
    ∀ s, isPfx p s = true → p ++ s.drop p.length = s := by
  induction p with
  | nil => intro s _; simp
  | cons a as ih =>
    intro s h
    cases s with
    | nil => simp [isPfx] at h
    | cons b bs =>
      simp only [isPfx, Bool.and_eq_true, beq_iff_eq] at h
      obtain ⟨hab, htail⟩ := h
      subst hab
      have := ih bs htail
      simp only [List.length_cons, List.drop_succ_cons, List.cons_append]
      rw [this]

theorem replFuel_eq_intercalate (p w : Str) (hp : p ≠ []) :
    ∀ fuel s, s.length ≤ fuel →
      replFuel p w fuel s = List.intercalate w (splitSeqFuel p fuel s) := by
  intro fuel
  induction fuel with
  | zero =>
    intro s hs
    have hnil : s = [] := List.eq_nil_of_length_eq_zero (Nat.le_zero.mp hs)
    subst hnil
    simp [replFuel, splitSeqFuel, List.intercalate]
  | succ fuel ih =>
    intro s hs
    cases s with
    | nil => simp [replFuel, splitSeqFuel, List.intercalate]
    | cons c rest =>
      have hplen : 1 ≤ p.length := by
        cases p with
        | nil => exact absurd rfl hp
        | cons a as => simp
      cases hpfx : isPfx p (c :: rest) with
      | true =>
        have hlen : (List.drop p.length (c :: rest)).length ≤ fuel := by
          simp only [List.length_cons] at hs
          simp only [List.length_drop, List.length_cons]
          omega
        simp only [replFuel, splitSeqFuel, hpfx, if_true]
        rw [ih _ hlen]
        cases hsegs : splitSeqFuel p fuel (List.drop p.length (c :: rest)) with
        | nil => exact absurd hsegs (splitSeqFuel_ne_nil p fuel _)
        | cons seg segs =>
          rw [intercalate_cons₂]
          simp
      | false =>
        have hlen : rest.length ≤ fuel := by
          simp only [List.length_cons] at hs
          omega
        simp only [replFuel, splitSeqFuel, hpfx, Bool.false_eq_true, if_false]
        cases hsegs : splitSeqFuel p fuel rest with
        | nil => exact absurd hsegs (splitSeqFuel_ne_nil p fuel rest)
        | cons seg segs =>
          rw [intercalate_cons_head, ← hsegs, ← ih rest hlen]

theorem splitSeqFuel_intercalate_self (p : Str) (hp : p ≠ []) :
    ∀ fuel s, s.length ≤ fuel →
      List.intercalate p (splitSeqFuel p fuel s) = s := by
  intro fuel
  induction fuel with
  | zero =>
    intro s hs
    have hnil : s = [] := List.eq_nil_of_length_eq_zero (Nat.le_zero.mp hs)
    subst hnil
    simp [splitSeqFuel, List.intercalate]
  | succ fuel ih =>
    intro s hs
    cases s with
    | nil => simp [splitSeqFuel, List.intercalate]
    | cons c rest =>
      have hplen : 1 ≤ p.length := by
        cases p with
        | nil => exact absurd rfl hp
        | cons a as => simp
      cases hpfx : isPfx p (c :: rest) with
      | true =>
        have hlen : (List.drop p.length (c :: rest)).length ≤ fuel := by
          simp only [List.length_cons] at hs
          simp only [List.length_drop, List.length_cons]
          omega
        simp only [splitSeqFuel, hpfx, if_true]
        cases hsegs : splitSeqFuel p fuel (List.drop p.length (c :: rest)) with
        | nil => exact absurd hsegs (splitSeqFuel_ne_nil p fuel _)
        | cons seg segs =>
          rw [intercalate_cons₂, ← hsegs, ih _ hlen]
          simp only [List.nil_append]
          exact isPfx_append_drop p (c :: rest) hpfx
      | false =>
        have hlen : rest.length ≤ fuel := by
          simp only [List.length_cons] at hs
          omega
        simp only [splitSeqFuel, hpfx, Bool.false_eq_true, if_false]
        cases hsegs : splitSeqFuel p fuel rest with
        | nil => exact absurd hsegs (splitSeqFuel_ne_nil p fuel rest)
        | cons seg segs =>
          rw [intercalate_cons_head, ← hsegs, ih rest hlen]

theorem splitOnceChar_append (sep : Char) (l r : Str) (h : sep ∉ l) :
    splitOnceChar sep (l ++ sep :: r) = some (l, r) := by
  induction l with
  | nil => simp [splitOnceChar]
  | cons c cs ih =>
    have hc : ¬ c = sep := fun hcontra => h (hcontra ▸ List.mem_cons_self c cs)
    have hcs : sep ∉ cs := fun hmem => h (List.mem_cons_of_mem c hmem)
    show splitOnceChar sep (c :: (cs ++ sep :: r)) = some (c :: cs, r)
    unfold splitOnceChar
    rw [if_neg hc, ih hcs]
    rfl

theorem trimLeft_cons_not_ws (c : Char) (s : Str) (hc : isRustWhitespace c = false) :
    trimLeft (c :: s) = c :: s := by
  simp [trimLeft, List.dropWhile_cons, hc]

theorem trimRight_append_not_ws (s : Str) (c : Char) (hc : isRustWhitespace c = false) :
    trimRight (s ++ [c]) = s ++ [c] := by
  simp [trimRight, List.dropWhile_cons, hc]

theorem trim_ends_not_ws (c d : Char) (s : Str)
    (hc : isRustWhitespace c = false) (hd : isRustWhitespace d = false) :
    trim (c :: (s ++ [d])) = c :: (s ++ [d]) := by
  unfold trim
  rw [show c :: (s ++ [d]) = (c :: s) ++ [d] from rfl,
    trimRight_append_not_ws (c :: s) d hd]
  exact trimLeft_cons_not_ws c (s ++ [d]) hc

/-- C5: for each fuzz word, the placeholder is substituted into each
CLI KEY=VALUE string as a literal substring substitution of every
occurrence before the split on the first equals sign.  The substituted
string the driver splits equals the placeholder-split segments of the
original interleaved with the word (and interleaving the placeholder
itself reconstructs the original), the placeholder may sit in both the
key and the value of one pair with all occurrences replaced, and
entries merged from a parameter file are inserted verbatim, never
substituted. -/
theorem fuzz_placeholder_substitution_spec :
    (∀ kv p w, p ≠ [] →
        rustReplace kv p w = List.intercalate w (splitOnSeq kv p)) ∧
    (∀ kv p, p ≠ [] → List.intercalate p (splitOnSeq kv p) = kv) ∧
    (∀ w, '=' ∉ w →
        collectFuzzParams phFUZZ w [fuzzSubstKv] [] =
          Except.ok [('a' :: (w ++ ['b']), 'c' :: (w ++ ['d']))]) ∧
    (∀ params ph w fields provided k v,
        collectFuzzParams ph w params [] = Except.ok provided →
        getField fields k = some v → lookupStr provided k = none →
        buildWordParams params ph w (some (Json.obj fields)) =
          Except.ok (mergeFileFields fields provided) ∧
        lookupStr (mergeFileFields fields provided) k =
          some (stringifyParamValue v)) := by
  refine ⟨?_, ?_, ?_, ?_⟩
  · intro kv p w hp
    unfold rustReplace splitOnSeq
    rw [if_neg hp]
    exact replFuel_eq_intercalate p w hp kv.length kv (Nat.le_refl _)
  · intro kv p hp
    unfold splitOnSeq
    exact splitSeqFuel_intercalate_self p hp kv.length kv (Nat.le_refl _)
  · intro w hw
    have hsub : rustReplace fuzzSubstKv phFUZZ w =
        ('a' :: (w ++ ['b'])) ++ '=' :: ('c' :: (w ++ ['d'])) := by
      have h1 : rustReplace fuzzSubstKv phFUZZ w =
          'a' :: (w ++ 'b' :: '=' :: 'c' :: (w ++ ['d'])) := rfl
      rw [h1]
      simp
    have hmem : '=' ∉ 'a' :: (w ++ ['b']) := by
      simp only [List.mem_cons, List.mem_append, List.mem_singleton]
      rintro (h | h | h)
      · exact absurd h (by decide)
      · exact hw h
      · exact absurd h (by decide)
    simp only [collectFuzzParams, hsub, splitOnceChar_append '=' _ _ hmem]
    rw [trim_ends_not_ws 'a' 'b' w (by decide) (by decide),
      trim_ends_not_ws 'c' 'd' w (by decide) (by decide)]
    rw [if_neg (by simp)]
    rfl
  · intro params ph w fields provided k v hcol hv hnone
    constructor
    · unfold buildWordParams
      rw [hcol]
      rfl
    · exact mergeFileFields_lookup_file fields provided k v hv hnone

/-- Witness for C5: the substitution conjuncts applied at the word W
and the concrete pair with the placeholder in both positions, plus the
file conjunct at a one-entry file. -/
theorem fuzz_placeholder_substitution_spec_witness :
    rustReplace fuzzSubstKv phFUZZ strWword =
      List.intercalate strWword (splitOnSeq fuzzSubstKv phFUZZ) ∧
    List.intercalate phFUZZ (splitOnSeq fuzzSubstKv phFUZZ) = fuzzSubstKv ∧
    collectFuzzParams phFUZZ strWword [fuzzSubstKv] [] =
      Except.ok [('a' :: (strWword ++ ['b']), 'c' :: (strWword ++ ['d']))] ∧
    buildWordParams [] phFUZZ strWword (some (Json.obj [(kwB, Json.str kwX)])) =
      Except.ok (mergeFileFields [(kwB, Json.str kwX)] []) ∧
    lookupStr (mergeFileFields [(kwB, Json.str kwX)] []) kwB =
      some (stringifyParamValue (Json.str kwX)) := by
  refine ⟨?_, ?_, ?_, ?_⟩
  · exact fuzz_placeholder_substitution_spec.1 fuzzSubstKv phFUZZ strWword (by decide)
  · exact fuzz_placeholder_substitution_spec.2.1 fuzzSubstKv phFUZZ (by decide)
  · exact fuzz_placeholder_substitution_spec.2.2.1 strWword (by decide)
  · exact fuzz_placeholder_substitution_spec.2.2.2 [] phFUZZ strWword
      [(kwB, Json.str kwX)] [] kwB (Json.str kwX) rfl rfl rfl

end McpHack
